import Mathlib

/-!
Verification of the jsonpointer repository (RFC 6901 JSON Pointer for Go).

The definitions below are a shallow embedding of the Go source:

* src/util.go     : fastAtoi, unescapeComponent, escapeComponent,
                    parseJsonPointer, formatJsonPointer, componentToString
* src/find.go     : find, parseArrayKey
* src/findbypointer.go : findByPointer, isArrayPointer, isObjectPointer
* src/get.go      : fastGet, getTokenAtIndex, tryArrayAccess,
                    tryObjectAccess, get, isArray, isObject
* src/types.go    : Path steps, Reference, isArrayReference, isArrayEnd

Go documents are dynamically typed (any); the GoVal inductive captures the
concrete value shapes the traversal code dispatches on.  Go machine integers
are modelled as Int with explicit two's-complement wrapping where the source
can overflow (fastAtoi); strconv.Atoi range checks use the int64 bounds.
Strings are handled at the byte level in Go; every byte the code compares
against is ASCII, so the List Char level is an exact model.
-/

set_option maxHeartbeats 1000000

namespace JsonPointer

/-! ## Decimal digits, strconv.Atoi, fastAtoi, strconv.Itoa -/

/-- ASCII decimal digit test, as the Go sources test a rune r with
r at least '0' and at most '9'. -/
def isDigitCh (c : Char) : Bool := 48 ≤ c.toNat && c.toNat ≤ 57

/-- Numeric value of an ASCII digit character (Go: r - '0'). -/
def digitVal (c : Char) : Nat := c.toNat - 48

/-- Value of a digit run, most significant digit first, starting from an
accumulator (the loop shape shared by Atoi-style parsers). -/
def digitsValFrom (a : Nat) (l : List Char) : Nat :=
  l.foldl (fun x c => x * 10 + digitVal c) a

/-- Value of a digit run, most significant digit first. -/
def digitsVal (l : List Char) : Nat := digitsValFrom 0 l

/-- Largest Go int64 value, the overflow bound of strconv.Atoi. -/
def int64Max : Int := 2 ^ 63 - 1

/-- Smallest Go int64 value. -/
def int64Min : Int := -(2 ^ 63)

/-- Digits-only parse used by strconv.ParseInt after sign handling:
fails on an empty run or any non-digit character. -/
def parseDigits (l : List Char) : Option Nat :=
  if !l.isEmpty && l.all isDigitCh then some (digitsVal l) else none

/-- Magnitude parse of strconv.Atoi for a non-negative result, with the
int64 range check. -/
def atoiPos (l : List Char) : Option Int :=
  match parseDigits l with
  | some n => if (n : Int) ≤ int64Max then some (n : Int) else none
  | none => none

/-- Magnitude parse of strconv.Atoi for a negative result, with the
int64 range check. -/
def atoiNeg (l : List Char) : Option Int :=
  match parseDigits l with
  | some n => if int64Min ≤ -(n : Int) then some (-(n : Int)) else none
  | none => none

/-- Model of Go strconv.Atoi (base 10, int-sized = 64 bit): an optional
sign followed by digits, rejecting empty digit runs, non-digit content and
values outside the int64 range. -/
def atoi (s : String) : Option Int :=
  match s.data with
  | [] => none
  | c :: rest =>
    if c = '+' then atoiPos rest
    else if c = '-' then atoiNeg rest
    else atoiPos (c :: rest)

/-- Decimal digit characters of n, most significant first, empty for 0;
fuel-driven so that the definition is structural (fuel at least n suffices
because n / 10 decreases). -/
def natDigitsAux : Nat → Nat → List Char
  | 0, _ => []
  | fuel + 1, n =>
    if n = 0 then []
    else natDigitsAux fuel (n / 10) ++ [Nat.digitChar (n % 10)]

/-- Decimal digit characters of n, most significant first. -/
def natDigits (n : Nat) : List Char :=
  if n = 0 then ['0'] else natDigitsAux n n

/-- Decimal string of a natural number. -/
def natRepr (n : Nat) : String := ⟨natDigits n⟩

/-- Model of Go strconv.Itoa on int64 values. -/
def itoa (i : Int) : String :=
  if i < 0 then "-" ++ natRepr i.natAbs else natRepr i.natAbs

/-- Two's-complement wrap into the signed 64-bit range, modelling Go int
overflow inside fastAtoi. -/
def wrap64 (x : Int) : Int := (x + 2 ^ 63) % 2 ^ 64 - 2 ^ 63

/-- Digit loop of fastAtoi (src/util.go): accumulate n*10 + digit with the
overflow test t < n on the wrapped value, returning -1 on any failure. -/
def fastAtoiLoop : Int → List Char → Int
  | n, [] => n
  | n, c :: rest =>
    if !isDigitCh c then -1
    else
      let t := wrap64 (n * 10 + (digitVal c : Int))
      if t < n then -1 else fastAtoiLoop t rest

/-- Model of fastAtoi (src/util.go): -1 for the empty string, 0 for "0",
-1 on a leading zero, otherwise the digit loop. -/
def fastAtoi (s : String) : Int :=
  match s.data with
  | [] => -1
  | c :: rest =>
    if s = "0" then 0
    else if c = '0' then -1
    else fastAtoiLoop 0 (c :: rest)

/-! ## Escaping codec (src/util.go) -/

/-- Byte loop of unescapeComponent (src/util.go): a tilde followed by 0
yields a tilde, followed by 1 yields a slash, otherwise (including a
trailing tilde) the tilde is copied verbatim. -/
def unescapeList : List Char → List Char
  | [] => []
  | c :: rest =>
    if c = '~' then
      match rest with
      | [] => ['~']
      | c2 :: rest2 =>
        if c2 = '0' then '~' :: unescapeList rest2
        else if c2 = '1' then '/' :: unescapeList rest2
        else '~' :: unescapeList (c2 :: rest2)
    else c :: unescapeList rest

/-- Byte loop of escapeComponent (src/util.go): tilde becomes tilde-0,
slash becomes tilde-1. -/
def escapeList : List Char → List Char
  | [] => []
  | c :: rest =>
    if c = '~' then '~' :: '0' :: escapeList rest
    else if c = '/' then '~' :: '1' :: escapeList rest
    else c :: escapeList rest

/-- unescapeComponent (src/util.go); the fast no-tilde path of the source
returns the input unchanged, which coincides with the loop. -/
def unescapeComponent (s : String) : String := ⟨unescapeList s.data⟩

/-- escapeComponent (src/util.go); the fast path likewise coincides. -/
def escapeComponent (s : String) : String := ⟨escapeList s.data⟩

/-- Split on slashes as the scanning loops of parseJsonPointer and
findByPointer do: the empty input gives one empty segment, and every
slash starts a new segment. -/
def splitOnSlash : List Char → List (List Char)
  | [] => [[]]
  | c :: rest =>
    if c = '/' then [] :: splitOnSlash rest
    else
      match splitOnSlash rest with
      | s :: ss => (c :: s) :: ss
      | [] => [[c]]

/-- Join segments with slashes, modelling strings.Join(parts, "/") in
formatJsonPointer. -/
def joinSegs : List (List Char) → List Char
  | [] => []
  | [l] => l
  | l :: rest => l ++ '/' :: joinSegs rest

/-! ## Path steps and documents -/

/-- A single path step.  Go paths hold any; the traversal code dispatches
on string and int steps (src/types.go PathStep). -/
inductive Step where
  | str (s : String)
  | int (n : Int)
  deriving DecidableEq, Repr

/-- componentToString (src/util.go) restricted to the step shapes above:
a string is itself, an int is rendered with strconv. -/
def componentToString : Step → String
  | .str s => s
  | .int n => itoa n

/-- Pointee type of a Go pointer value, as the static types the type
switches in src/get.go name: *map[string]any, *[]any, *any, or any other
pointer type. -/
inductive PtrTy where
  | tMapAny
  | tArrAny
  | tAny
  | tOther
  deriving DecidableEq, Repr

/-- Shapes of Go document values the traversal dispatches on.  Sequences
and mappings carry their elements; arrOther stands for any further slice
type reached only through reflection (for example a slice of structs),
mapStrOther for any further string-keyed map type, mapIntKey for a map
whose key type is not string (the exotic-key case), and strct for a
struct whose exported fields are addressed by their exposed name. -/
inductive GoVal where
  | null
  | vstr (s : String)
  | vint (n : Int)
  | vbool (b : Bool)
  | arrAny (xs : List GoVal)
  | arrStr (xs : List String)
  | arrInt (xs : List Int)
  | arrOther (xs : List GoVal)
  | mapAny (m : List (String × GoVal))
  | mapStr (m : List (String × String))
  | mapInt (m : List (String × Int))
  | mapStrOther (m : List (String × GoVal))
  | mapIntKey (m : List (Int × GoVal))
  | ptr (t : PtrTy) (v : Option GoVal)
  | strct (fields : List (String × GoVal))

/-- Interface-nil test (Go: val == nil). -/
def GoVal.isNull : GoVal → Bool
  | .null => true
  | _ => false

/-- Reflect Kind Slice test on a non-nil value. -/
def isSliceKind : GoVal → Bool
  | .arrAny _ | .arrStr _ | .arrInt _ | .arrOther _ => true
  | _ => false

/-- String-keyed map test (reflect Kind Map with a string key type). -/
def isStrMapKind : GoVal → Bool
  | .mapAny _ | .mapStr _ | .mapInt _ | .mapStrOther _ => true
  | _ => false

/-- Reflect Len of a slice value. -/
def sliceLen : GoVal → Nat
  | .arrAny xs => xs.length
  | .arrStr xs => xs.length
  | .arrInt xs => xs.length
  | .arrOther xs => xs.length
  | _ => 0

/-- Reflect Index(i).Interface() of a slice value, as an interface value. -/
def sliceElem (v : GoVal) (i : Nat) : GoVal :=
  match v with
  | .arrAny xs => xs.getD i .null
  | .arrStr xs => .vstr (xs.getD i "")
  | .arrInt xs => .vint (xs.getD i 0)
  | .arrOther xs => xs.getD i .null
  | _ => .null

/-! ## Errors, references, parseArrayKey (src/find.go, src/types.go) -/

/-- Error kinds surfaced by the strict operations (errors.go of the
repository defines ErrNotFound and ErrInvalidIndex used by src/find.go
and src/findbypointer.go). -/
inductive JPErr where
  | notFound
  | invalidIndex
  deriving DecidableEq, Repr

/-- Result of parseArrayKey: a parsed index or the end marker. -/
inductive ArrKey where
  | index (n : Int)
  | endMarker
  deriving DecidableEq, Repr

/-- parseArrayKey (src/find.go): an int key must be non-negative; a string
key is the end marker "-", or must survive strconv.Atoi, be non-negative,
and round-trip through strconv.Itoa to the original string; any other key
shape is an invalid index. -/
def parseArrayKey : Step → Except JPErr ArrKey
  | .int k => if k < 0 then .error .invalidIndex else .ok (.index k)
  | .str k =>
    if k = "-" then .ok .endMarker
    else
      match atoi k with
      | none => .error .invalidIndex
      | some parsed =>
        if parsed < 0 then .error .invalidIndex
        else if itoa parsed ≠ k then .error .invalidIndex
        else .ok (.index parsed)

/-- Reference (src/types.go): resolved value, containing object and key;
object and key are unset for the root. -/
structure Reference where
  val : GoVal
  obj : Option GoVal := none
  key : Option Step := none

/-- Result of one loop iteration of find: an error, a Go runtime panic
(reflect MapIndex with a key not assignable to the map key type), or the
containing object, descended-into value and normalized key. -/
inductive StepRes where
  | err (e : JPErr)
  | panicked
  | next (obj : GoVal) (val : GoVal) (key : Step)

/-- Result of find / findByPointer. -/
inductive FindRes where
  | ok (r : Reference)
  | err (e : JPErr)
  | panicked

/-! ## find (src/find.go) -/

/-- Pointer chasing of the reflect.Ptr retry branch of find: a nil pointer
is reported as none (the branch raises ErrNotFound there), otherwise
dereference until the value is no longer a pointer. -/
def derefChain : GoVal → Option GoVal
  | .ptr _ none => none
  | .ptr _ (some v) => derefChain v
  | v => some v

/-- One loop iteration of find (src/find.go) on an already dereferenced
value: the nil check, the dedicated type-switch cases for []any,
map[string]any, []string, []int, map[string]string, map[string]int, and
the reflection default for other slices, other string-keyed maps, maps
with a non-string key type (where reflect MapIndex panics), structs, and
primitives.  The []float64 and map[string]float64 cases of the source are
textually identical to the []int and map[string]int cases and are not
modelled separately.  Pointer shapes are unreachable here (derefChain runs
first) and fall to the not-found outcome. -/
def findStepBase (obj : GoVal) (key : Step) : StepRes :=
  match obj with
  | .null => .err .notFound
  | .arrAny xs =>
    match parseArrayKey key with
    | .error e => .err e
    | .ok .endMarker => .next (.arrAny xs) .null (.int (xs.length : Int))
    | .ok (.index n) =>
      .next (.arrAny xs)
        (if n < (xs.length : Int) then xs.getD n.toNat .null else .null) (.int n)
  | .mapAny m =>
    match key with
    | .str ks => .next (.mapAny m) ((List.lookup ks m).getD .null) (.str ks)
    | .int _ => .err .notFound
  | .arrStr xs =>
    match parseArrayKey key with
    | .error e => .err e
    | .ok .endMarker => .next (.arrStr xs) .null (.int (xs.length : Int))
    | .ok (.index n) =>
      .next (.arrStr xs)
        (if n < (xs.length : Int) then .vstr (xs.getD n.toNat "") else .null) (.int n)
  | .arrInt xs =>
    match parseArrayKey key with
    | .error e => .err e
    | .ok .endMarker => .next (.arrInt xs) .null (.int (xs.length : Int))
    | .ok (.index n) =>
      .next (.arrInt xs)
        (if n < (xs.length : Int) then .vint (xs.getD n.toNat 0) else .null) (.int n)
  | .mapStr m =>
    match key with
    | .str ks => .next (.mapStr m) (((List.lookup ks m).map GoVal.vstr).getD .null) (.str ks)
    | .int _ => .err .notFound
  | .mapInt m =>
    match key with
    | .str ks => .next (.mapInt m) (((List.lookup ks m).map GoVal.vint).getD .null) (.str ks)
    | .int _ => .err .notFound
  | .arrOther xs =>
    match parseArrayKey key with
    | .error e => .err e
    | .ok .endMarker => .next (.arrOther xs) .null (.int (xs.length : Int))
    | .ok (.index n) =>
      .next (.arrOther xs)
        (if n < (xs.length : Int) then xs.getD n.toNat .null else .null) (.int n)
  | .mapStrOther m =>
    match key with
    | .str ks => .next (.mapStrOther m) ((List.lookup ks m).getD .null) (.str ks)
    | .int _ => .err .notFound
  | .mapIntKey _ =>
    match key with
    | .str _ => .panicked
    | .int _ => .err .notFound
  | .strct fields =>
    match key with
    | .str ks => .next (.strct fields) ((List.lookup ks fields).getD .null) (.str ks)
    | .int _ => .err .notFound
  | .vstr _ => .err .notFound
  | .vint _ => .err .notFound
  | .vbool _ => .err .notFound
  | .ptr _ _ => .err .notFound

/-- One loop iteration of find including the pointer retry. -/
def findStep (val : GoVal) (key : Step) : StepRes :=
  match derefChain val with
  | none => .err .notFound
  | some base => findStepBase base key

/-- Loop of find (src/find.go): thread the object and key set by each
iteration into the final Reference. -/
def findSteps : GoVal → List Step → Option GoVal → Option Step → FindRes
  | val, [], obj, key => .ok ⟨val, obj, key⟩
  | val, k :: rest, _, _ =>
    match findStep val k with
    | .err e => .err e
    | .panicked => .panicked
    | .next o v nk => findSteps v rest (some o) (some nk)

/-- find (src/find.go): an empty path returns the document itself with no
object and key. -/
def find (val : GoVal) (path : List Step) : FindRes :=
  if path.isEmpty then .ok ⟨val, none, none⟩ else findSteps val path none none

/-! ## findByPointer (src/findbypointer.go) -/

/-- isArrayPointer (src/findbypointer.go): non-nil and of reflect Kind
Slice. -/
def isArrayPointer : GoVal → Bool
  | .arrAny _ | .arrStr _ | .arrInt _ | .arrOther _ => true
  | _ => false

/-- isObjectPointer (src/findbypointer.go): non-nil and of reflect Kind
Map, Struct or Ptr. -/
def isObjectPointer : GoVal → Bool
  | .mapAny _ | .mapStr _ | .mapInt _ | .mapStrOther _ | .mapIntKey _
  | .ptr _ _ | .strct _ => true
  | _ => false

/-- Modelled from the spec: the structField helper used by src/find.go and
src/findbypointer.go lives in a source file that is not under src/.  Per
spec section 4.1 it resolves a struct member by its exposed name (the
serialization tag when present, else the declared field name, with
unexported and ignore-marked members invisible), and per the repository
tests it first dereferences a pointer to a struct.  The strct shape
carries exposed, visible fields directly, so the lookup is by field
name. -/
def structField (key : String) : GoVal → Option GoVal
  | .strct fields => List.lookup key fields
  | .ptr _ (some v) => structField key v
  | _ => none

/-- One segment iteration of findByPointer (src/findbypointer.go): slices
go through reflection with the end marker and the Atoi/Itoa canonical
index checks; maps go through reflect MapIndex on the unescaped key
(panicking for a non-string key type); other object kinds (struct,
pointer) go through structField; anything else is not traversable. -/
def fbpStep (val : GoVal) (seg : List Char) : StepRes :=
  if isArrayPointer val then
    if seg = ['-'] then .next val .null (.int (sliceLen val : Int))
    else
      match atoi ⟨seg⟩ with
      | none => .err .invalidIndex
      | some n =>
        if itoa n ≠ (⟨seg⟩ : String) then .err .invalidIndex
        else if n < 0 then .err .invalidIndex
        else
          .next val
            (if n < (sliceLen val : Int) then sliceElem val n.toNat else .null) (.int n)
  else if isObjectPointer val then
    let ks := unescapeComponent ⟨seg⟩
    match val with
    | .mapAny m => .next val ((List.lookup ks m).getD .null) (.str ks)
    | .mapStr m => .next val (((List.lookup ks m).map GoVal.vstr).getD .null) (.str ks)
    | .mapInt m => .next val (((List.lookup ks m).map GoVal.vint).getD .null) (.str ks)
    | .mapStrOther m => .next val ((List.lookup ks m).getD .null) (.str ks)
    | .mapIntKey _ => .panicked
    | v => .next val ((structField ks v).getD .null) (.str ks)
  else .err .notFound

/-- Segment loop of findByPointer. -/
def fbpSteps : GoVal → List (List Char) → Option GoVal → Option Step → FindRes
  | val, [], obj, key => .ok ⟨val, obj, key⟩
  | val, seg :: rest, _, _ =>
    match fbpStep val seg with
    | .err e => .err e
    | .panicked => .panicked
    | .next o v nk => fbpSteps v rest (some o) (some nk)

/-- findByPointer (src/findbypointer.go): the empty pointer returns the
document; otherwise the pointer is scanned from index 1 as slash-separated
segments. -/
def findByPointer (pointer : String) (val : GoVal) : FindRes :=
  if pointer = "" then .ok ⟨val, none, none⟩
  else fbpSteps val (splitOnSlash pointer.data.tail) none none

/-! ## get (src/get.go) -/

/-- internalToken (src/types.go): the step rendered as a string together
with its fastAtoi index. -/
structure InternalToken where
  key : String
  index : Int
  deriving DecidableEq, Repr

/-- getTokenAtIndex (src/get.go) for one step: componentToString paired
with fastAtoi of it. -/
def tokenOf (step : Step) : InternalToken :=
  let ks := componentToString step
  ⟨ks, fastAtoi ks⟩

/-- fastGet (src/get.go): the zero-allocation path, handling
map[string]any, *map[string]any, []any, *[]any and *any, deferring every
other shape to the fallback with ok = false. -/
def fastGet : GoVal → Step → GoVal × Bool
  | .mapAny m, step =>
    match step with
    | .str ks =>
      match List.lookup ks m with
      | some v => (v, true)
      | none => (.null, false)
    | _ => (.null, false)
  | .ptr .tMapAny none, _ => (.null, false)
  | .ptr .tMapAny (some p), step =>
    match p with
    | .mapAny m =>
      match step with
      | .str ks =>
        match List.lookup ks m with
        | some v => (v, true)
        | none => (.null, false)
      | _ => (.null, false)
    | _ => (.null, false)
  | .arrAny xs, step =>
    let ks := componentToString step
    if ks = "-" then (.null, false)
    else
      let i := fastAtoi ks
      if i < 0 ∨ (xs.length : Int) ≤ i then (.null, false)
      else (xs.getD i.toNat .null, true)
  | .ptr .tArrAny none, _ => (.null, false)
  | .ptr .tArrAny (some p), step =>
    match p with
    | .arrAny xs =>
      let ks := componentToString step
      if ks = "-" then (.null, false)
      else
        let i := fastAtoi ks
        if i < 0 ∨ (xs.length : Int) ≤ i then (.null, false)
        else (xs.getD i.toNat .null, true)
    | _ => (.null, false)
  | .ptr .tAny none, _ => (.null, false)
  | .ptr .tAny (some v), step => fastGet v step
  | _, _ => (.null, false)

/-- Outcome of tryArrayAccess / tryObjectAccess (src/get.go): a handled
access with its value, an unhandled shape, or a Go runtime panic. -/
inductive TryRes where
  | res (v : GoVal)
  | unhandled
  | panicked

/-- isArray (src/get.go): non-nil and of reflect Kind Slice. -/
def isArray : GoVal → Bool
  | .arrAny _ | .arrStr _ | .arrInt _ | .arrOther _ => true
  | _ => false

/-- isObject (src/get.go): non-nil and of reflect Kind Map, Struct or
Ptr. -/
def isObject : GoVal → Bool
  | .mapAny _ | .mapStr _ | .mapInt _ | .mapStrOther _ | .mapIntKey _
  | .ptr _ _ | .strct _ => true
  | _ => false

/-- tryArrayAccess (src/get.go): typed cases for []any, *[]any, []string,
[]int, then a reflection fallback for other slice shapes; every miss on a
slice (end marker, negative index, out of bounds, nil pointer) is handled
as nil.  The []float64 case of the source mirrors the []int case and is
not modelled separately. -/
def tryArrayAccess (current : GoVal) (token : InternalToken) : TryRes :=
  match current with
  | .arrAny xs =>
    if token.key = "-" then .res .null
    else if token.index < 0 ∨ (xs.length : Int) ≤ token.index then .res .null
    else .res (xs.getD token.index.toNat .null)
  | .ptr .tArrAny none => .res .null
  | .ptr .tArrAny (some p) =>
    match p with
    | .arrAny xs =>
      if token.key = "-" then .res .null
      else if token.index < 0 ∨ (xs.length : Int) ≤ token.index then .res .null
      else .res (xs.getD token.index.toNat .null)
    | _ => .res .null
  | .arrStr xs =>
    if token.key = "-" then .res .null
    else if token.index < 0 ∨ (xs.length : Int) ≤ token.index then .res .null
    else .res (.vstr (xs.getD token.index.toNat ""))
  | .arrInt xs =>
    if token.key = "-" then .res .null
    else if token.index < 0 ∨ (xs.length : Int) ≤ token.index then .res .null
    else .res (.vint (xs.getD token.index.toNat 0))
  | cur =>
    if !isArray cur then .unhandled
    else if token.key = "-" then .res .null
    else if token.index < 0 then .res .null
    else if (sliceLen cur : Int) ≤ token.index then .res .null
    else .res (sliceElem cur token.index.toNat)

/-- tryObjectAccess (src/get.go): typed cases for map[string]any,
*map[string]any, map[string]string, map[string]int, then a reflection
fallback: a reflect Map does MapIndex on the token key (panicking when the
map key type is not string), a pointer is dereferenced and must lead to a
struct, and a struct resolves by FieldByName with missing or unexported
fields handled as nil.  A *any dereferences to a reflect Interface value,
which is not a struct, so it is unhandled.  The map[string]float64 case of
the source mirrors the map[string]int case and is not modelled
separately. -/
def tryObjectAccess (current : GoVal) (token : InternalToken) : TryRes :=
  match current with
  | .mapAny m => .res ((List.lookup token.key m).getD .null)
  | .ptr .tMapAny none => .res .null
  | .ptr .tMapAny (some p) =>
    match p with
    | .mapAny m => .res ((List.lookup token.key m).getD .null)
    | _ => .res .null
  | .mapStr m => .res (((List.lookup token.key m).map GoVal.vstr).getD .null)
  | .mapInt m => .res (((List.lookup token.key m).map GoVal.vint).getD .null)
  | cur =>
    if !isObject cur then .unhandled
    else
      match cur with
      | .mapStrOther m => .res ((List.lookup token.key m).getD .null)
      | .mapIntKey _ => .panicked
      | .strct fields => .res ((List.lookup token.key fields).getD .null)
      | .ptr .tOther (some (.strct fields)) =>
        .res ((List.lookup token.key fields).getD .null)
      | _ => .unhandled

/-- Result of get: a value (nil for absent) or a Go runtime panic. -/
inductive GetRes where
  | ok (v : GoVal)
  | panicked

/-- Holds when a get outcome is a returned value rather than a panic. -/
def GetRes.isOk : GetRes → Bool
  | .ok _ => true
  | .panicked => false

/-- Fallback loop of get (src/get.go): per remaining step, a nil current
value returns nil, otherwise tryArrayAccess then tryObjectAccess; if
neither handles the shape the walk returns nil. -/
def getFallback : GoVal → List Step → GetRes
  | cur, [] => .ok cur
  | cur, k :: rest =>
    if cur.isNull then .ok .null
    else
      let token := tokenOf k
      match tryArrayAccess cur token with
      | .res v => getFallback v rest
      | .panicked => .panicked
      | .unhandled =>
        match tryObjectAccess cur token with
        | .res v => getFallback v rest
        | .panicked => .panicked
        | .unhandled => .ok .null

/-- Fast-path loop of get (src/get.go): run fastGet step by step and on
the first miss hand the current value and the remaining steps to the
fallback loop. -/
def getLoop : GoVal → List Step → GetRes
  | cur, [] => .ok cur
  | cur, k :: rest =>
    match fastGet cur k with
    | (v, true) => getLoop v rest
    | (_, false) => getFallback cur (k :: rest)

/-- get (src/get.go): the permissive entry point. -/
def get (val : GoVal) (path : List Step) : GetRes := getLoop val path

/-! ## Reference predicates (src/types.go) -/

/-- isArrayReference (src/types.go): object and key are set, the object is
a slice, and the key is an integer or a string that strconv.Atoi
accepts. -/
def isArrayReference (r : Reference) : Bool :=
  match r.obj, r.key with
  | some o, some k =>
    isSliceKind o &&
      (match k with
       | .int _ => true
       | .str s => (atoi s).isSome)
  | _, _ => false

/-- ArrayReference (src/types.go): a typed view of a reference into a
sequence, with a nil-able value, the sequence, and an int key. -/
structure ArrayReference where
  val : Option GoVal
  obj : List GoVal
  key : Int

/-- isArrayEnd (src/types.go): the key equals the length of the
sequence. -/
def isArrayEnd (r : ArrayReference) : Bool := (r.obj.length : Int) == r.key

/-! ## Pointer string codec and validation -/

/-- parseJsonPointer (src/util.go): the empty pointer is the empty path;
otherwise the text after the leading character is split on slashes and
each segment is unescaped into a string step. -/
def parseJsonPointer (pointer : String) : List Step :=
  if pointer = "" then []
  else (splitOnSlash pointer.data.tail).map fun seg => Step.str ⟨unescapeList seg⟩

/-- formatJsonPointer (src/util.go): the empty path is the empty string;
otherwise each component is rendered, escaped, and joined with slashes
behind a leading slash. -/
def formatJsonPointer (path : List Step) : String :=
  if path.isEmpty then ""
  else ⟨'/' :: joinSegs (path.map fun c => escapeList (componentToString c).data)⟩

/-- Validation error kinds for pointer strings. -/
inductive ValErr where
  | pointerInvalid
  | pointerTooLong
  deriving DecidableEq, Repr

/-- Modelled from the spec: validateJsonPointer lives in a source file
that is not under src/.  Per spec section 6 and the repository tests, a
pointer string is valid when it is empty, or starts with a slash and is at
most 1024 characters long; a missing leading slash is PointerInvalid and
excess length is PointerTooLong. -/
def validateJsonPointer (s : String) : Except ValErr Unit :=
  if s = "" then .ok ()
  else if s.data.head? ≠ some '/' then .error .pointerInvalid
  else if 1024 < s.length then .error .pointerTooLong
  else .ok ()

/-! ## Well-formedness predicates used by the theorems -/

/-- Holds when every tilde in the character list is immediately followed
by the digit 0 or 1 (the RFC 6901 escaping discipline). -/
def tildeWF : List Char → Bool
  | [] => true
  | c :: rest =>
    if c = '~' then
      match rest with
      | [] => false
      | c2 :: rest2 => (c2 = '0' || c2 = '1') && tildeWF rest2
    else tildeWF rest

mutual

/-- Holds when the document contains no map with a non-string key type
anywhere (the shape whose reflective access panics). -/
def noMapIntKey : GoVal → Bool
  | .null => true
  | .vstr _ => true
  | .vint _ => true
  | .vbool _ => true
  | .arrAny xs => noMapIntKeyList xs
  | .arrStr _ => true
  | .arrInt _ => true
  | .arrOther xs => noMapIntKeyList xs
  | .mapAny m => noMapIntKeyPairs m
  | .mapStr _ => true
  | .mapInt _ => true
  | .mapStrOther m => noMapIntKeyPairs m
  | .mapIntKey _ => false
  | .ptr _ none => true
  | .ptr _ (some v) => noMapIntKey v
  | .strct fields => noMapIntKeyPairs fields

/-- List form of noMapIntKey. -/
def noMapIntKeyList : List GoVal → Bool
  | [] => true
  | v :: rest => noMapIntKey v && noMapIntKeyList rest

/-- Pair-list form of noMapIntKey. -/
def noMapIntKeyPairs : List (String × GoVal) → Bool
  | [] => true
  | (_, v) :: rest => noMapIntKey v && noMapIntKeyPairs rest

end

mutual

/-- Holds when the document contains no pointer of static type *any
anywhere (the indirection shape the fast path of get resolves but the
fallback tiers do not). -/
def noPtrAny : GoVal → Bool
  | .null => true
  | .vstr _ => true
  | .vint _ => true
  | .vbool _ => true
  | .arrAny xs => noPtrAnyList xs
  | .arrStr _ => true
  | .arrInt _ => true
  | .arrOther xs => noPtrAnyList xs
  | .mapAny m => noPtrAnyPairs m
  | .mapStr _ => true
  | .mapInt _ => true
  | .mapStrOther m => noPtrAnyPairs m
  | .mapIntKey m => noPtrAnyIntPairs m
  | .ptr .tAny _ => false
  | .ptr _ none => true
  | .ptr _ (some v) => noPtrAny v
  | .strct fields => noPtrAnyPairs fields

/-- List form of noPtrAny. -/
def noPtrAnyList : List GoVal → Bool
  | [] => true
  | v :: rest => noPtrAny v && noPtrAnyList rest

/-- Pair-list form of noPtrAny. -/
def noPtrAnyPairs : List (String × GoVal) → Bool
  | [] => true
  | (_, v) :: rest => noPtrAny v && noPtrAnyPairs rest

/-- Int-keyed pair-list form of noPtrAny. -/
def noPtrAnyIntPairs : List (Int × GoVal) → Bool
  | [] => true
  | (_, v) :: rest => noPtrAny v && noPtrAnyIntPairs rest

end

/-- Replace the containing object recorded by a successful step outcome,
used to compare the dedicated and reflective tiers of find on the same
underlying data. -/
def StepRes.setObj (o : GoVal) : StepRes → StepRes
  | .next _ v k => .next o v k
  | r => r

/-! ## Lemmas on digits and the Atoi/Itoa round trip -/

theorem digitsValFrom_append (a : Nat) (l1 l2 : List Char) :
    digitsValFrom a (l1 ++ l2) = digitsValFrom (digitsValFrom a l1) l2 := by
  simp [digitsValFrom, List.foldl_append]

theorem digitsValFrom_le (a : Nat) (l : List Char) : a ≤ digitsValFrom a l := by
  induction l generalizing a with
  | nil => simp [digitsValFrom]
  | cons c rest ih =>
    have h1 : a ≤ a * 10 + digitVal c := by omega
    calc a ≤ a * 10 + digitVal c := h1
      _ ≤ digitsValFrom (a * 10 + digitVal c) rest := ih _
      _ = digitsValFrom a (c :: rest) := by simp [digitsValFrom, List.foldl_cons]

theorem digitsValFrom_cons (a : Nat) (c : Char) (l : List Char) :
    digitsValFrom a (c :: l) = digitsValFrom (a * 10 + digitVal c) l := by
  simp [digitsValFrom, List.foldl_cons]

theorem digitVal_digitChar {d : Nat} (h : d < 10) : digitVal (Nat.digitChar d) = d := by
  interval_cases d <;> rfl

theorem isDigitCh_digitChar {d : Nat} (h : d < 10) : isDigitCh (Nat.digitChar d) = true := by
  interval_cases d <;> rfl

theorem digitChar_ne_zero {d : Nat} (h : d < 10) (h2 : d ≠ 0) : Nat.digitChar d ≠ '0' := by
  interval_cases d <;> simp_all <;> decide

theorem natDigitsAux_zero (fuel : Nat) : natDigitsAux fuel 0 = [] := by
  cases fuel <;> simp [natDigitsAux]

theorem natDigitsAux_spec :
    ∀ fuel n, 0 < n → n ≤ fuel →
      natDigitsAux fuel n ≠ [] ∧
      (∀ c ∈ natDigitsAux fuel n, isDigitCh c = true) ∧
      digitsVal (natDigitsAux fuel n) = n ∧
      (∀ c, (natDigitsAux fuel n).head? = some c → c ≠ '0') := by
  intro fuel
  induction fuel with
  | zero => intro n h1 h2; omega
  | succ fuel ih =>
    intro n h1 h2
    have hne : ¬ n = 0 := by omega
    have hdef : natDigitsAux (fuel + 1) n
        = natDigitsAux fuel (n / 10) ++ [Nat.digitChar (n % 10)] := by
      simp [natDigitsAux, hne]
    have hmod : n % 10 < 10 := Nat.mod_lt _ (by omega)
    by_cases hq : n / 10 = 0
    · have hlt : n < 10 := by omega
      have hmodn : n % 10 = n := Nat.mod_eq_of_lt hlt
      rw [hdef, hq, natDigitsAux_zero]
      refine ⟨by simp, ?_, ?_, ?_⟩
      · intro c hc
        simp at hc
        subst hc
        exact isDigitCh_digitChar hmod
      · rw [hmodn]
        simp [digitsVal, digitsValFrom, digitVal_digitChar hlt]
      · intro c hc
        simp at hc
        subst hc
        rw [hmodn]
        exact digitChar_ne_zero (by omega) hne
    · have hq1 : 0 < n / 10 := Nat.pos_of_ne_zero hq
      have hq2 : n / 10 ≤ fuel := by
        have := Nat.div_lt_self h1 (by omega : 1 < 10)
        omega
      obtain ⟨hne2, hdig, hval, hhead⟩ := ih (n / 10) hq1 hq2
      rw [hdef]
      refine ⟨by simp, ?_, ?_, ?_⟩
      · intro c hc
        rcases List.mem_append.mp hc with h | h
        · exact hdig c h
        · simp at h
          subst h
          exact isDigitCh_digitChar hmod
      · have : digitsVal (natDigitsAux fuel (n / 10) ++ [Nat.digitChar (n % 10)])
            = digitsVal (natDigitsAux fuel (n / 10)) * 10 + digitVal (Nat.digitChar (n % 10)) := by
          simp [digitsVal, digitsValFrom_append, digitsValFrom_cons, digitsValFrom]
        rw [this, hval, digitVal_digitChar hmod]
        omega
      · intro c hc
        rw [List.head?_append_of_ne_nil _ hne2] at hc
        exact hhead c hc

theorem natDigits_spec (n : Nat) :
    natDigits n ≠ [] ∧
    (∀ c ∈ natDigits n, isDigitCh c = true) ∧
    digitsVal (natDigits n) = n ∧
    (∀ c, (natDigits n).head? = some c → (n ≠ 0 → c ≠ '0')) := by
  by_cases h : n = 0
  · subst h
    refine ⟨by simp [natDigits], ?_, by simp [natDigits, digitsVal, digitsValFrom, digitVal], ?_⟩
    · intro c hc
      simp [natDigits] at hc
      subst hc
      rfl
    · intro c _ h0
      exact absurd rfl h0
  · have := natDigitsAux_spec n n (Nat.pos_of_ne_zero h) le_rfl
    simp only [natDigits, h, if_false]
    exact ⟨this.1, this.2.1, this.2.2.1, fun c hc _ => this.2.2.2 c hc⟩

theorem isDigitCh_ne {c : Char} (h : isDigitCh c = true) :
    c ≠ '+' ∧ c ≠ '-' ∧ c ≠ '/' ∧ c ≠ '~' := by
  refine ⟨?_, ?_, ?_, ?_⟩ <;> rintro rfl <;> exact absurd h (by decide)

theorem natRepr_data (n : Nat) : (natRepr n).data = natDigits n := rfl

theorem atoi_natRepr {n : Nat} (h : (n : Int) ≤ int64Max) : atoi (natRepr n) = some (n : Int) := by
  obtain ⟨hne, hdig, hval, _⟩ := natDigits_spec n
  obtain ⟨c, cs, hcons⟩ : ∃ c cs, natDigits n = c :: cs := by
    cases hl : natDigits n with
    | nil => exact absurd hl hne
    | cons c cs => exact ⟨c, cs, rfl⟩
  have hc : isDigitCh c = true := hdig c (by rw [hcons]; exact List.mem_cons_self _ _)
  obtain ⟨hplus, hminus, _, _⟩ := isDigitCh_ne hc
  show atoi ⟨natDigits n⟩ = some (n : Int)
  rw [hcons]
  simp only [atoi, if_neg hplus, if_neg hminus]
  have hall : (c :: cs).all isDigitCh = true := by
    rw [List.all_eq_true]
    intro x hx
    exact hdig x (by rw [hcons]; exact hx)
  simp only [atoiPos, parseDigits, List.isEmpty_cons, Bool.not_false, hall, Bool.and_self,
    if_true]
  rw [← hcons, hval]
  simp only [if_pos h]

theorem wrap64_id {x : Int} (h0 : 0 ≤ x) (h1 : x < 2 ^ 63) : wrap64 x = x := by
  unfold wrap64
  rw [Int.emod_eq_of_lt (by omega) (by omega)]
  omega

theorem fastAtoiLoop_spec :
    ∀ (l : List Char) (a : Nat), (∀ c ∈ l, isDigitCh c = true) →
      ((digitsValFrom a l : Int) < 2 ^ 63) →
      fastAtoiLoop (a : Int) l = (digitsValFrom a l : Int) := by
  intro l
  induction l with
  | nil => intro a _ _; simp [fastAtoiLoop, digitsValFrom]
  | cons c rest ih =>
    intro a hdig hbound
    have hc : isDigitCh c = true := hdig c (List.mem_cons_self _ _)
    rw [digitsValFrom_cons] at hbound ⊢
    have hle : (a * 10 + digitVal c : Nat) ≤ digitsValFrom (a * 10 + digitVal c) rest :=
      digitsValFrom_le _ _
    have hlt : ((a * 10 + digitVal c : Nat) : Int) < 2 ^ 63 := by
      calc ((a * 10 + digitVal c : Nat) : Int)
          ≤ (digitsValFrom (a * 10 + digitVal c) rest : Int) := by exact_mod_cast hle
        _ < 2 ^ 63 := hbound
    have hwrap : wrap64 ((a : Int) * 10 + (digitVal c : Int))
        = ((a * 10 + digitVal c : Nat) : Int) := by
      rw [show (a : Int) * 10 + (digitVal c : Int) = ((a * 10 + digitVal c : Nat) : Int) by
        push_cast; ring]
      exact wrap64_id (by positivity) hlt
    simp only [fastAtoiLoop, hc, Bool.not_true, if_false, Bool.false_eq_true]
    rw [hwrap]
    have hnotlt : ¬ ((a * 10 + digitVal c : Nat) : Int) < (a : Int) := by
      push_cast
      omega
    rw [if_neg hnotlt]
    exact ih (a * 10 + digitVal c) (fun x hx => hdig x (List.mem_cons_of_mem _ hx)) hbound

theorem fastAtoi_natRepr {n : Nat} (h : (n : Int) ≤ int64Max) : fastAtoi (natRepr n) = (n : Int) := by
  by_cases h0 : n = 0
  · subst h0
    rfl
  · obtain ⟨hne, hdig, hval, hhead⟩ := natDigits_spec n
    obtain ⟨c, cs, hcons⟩ : ∃ c cs, natDigits n = c :: cs := by
      cases hl : natDigits n with
      | nil => exact absurd hl hne
      | cons c cs => exact ⟨c, cs, rfl⟩
    have hcz : c ≠ '0' := hhead c (by rw [hcons]; rfl) h0
    show fastAtoi ⟨natDigits n⟩ = (n : Int)
    rw [hcons]
    have hs0 : (⟨c :: cs⟩ : String) ≠ "0" := by
      intro he
      have hdata : c :: cs = ['0'] := congrArg String.data he
      exact hcz (by injection hdata)
    have hval2 : digitsValFrom 0 (c :: cs) = n := by
      rw [show digitsValFrom 0 (c :: cs) = digitsVal (c :: cs) from rfl, ← hcons, hval]
    have hloop := fastAtoiLoop_spec (c :: cs) 0
      (fun x hx => hdig x (by rw [hcons]; exact hx))
      (by
        rw [hval2]
        simp only [int64Max] at h
        omega)
    rw [hval2] at hloop
    calc fastAtoi ⟨c :: cs⟩ = fastAtoiLoop 0 (c :: cs) := by
          simp only [fastAtoi]
          rw [if_neg hs0, if_neg hcz]
      _ = (n : Int) := by exact_mod_cast hloop

theorem natRepr_chars {n : Nat} {c : Char} (hc : c ∈ (natRepr n).data) : isDigitCh c = true :=
  (natDigits_spec n).2.1 c hc

theorem natRepr_ne_dash (n : Nat) : natRepr n ≠ "-" := by
  intro h
  obtain ⟨hne, hdig, _, _⟩ := natDigits_spec n
  have : (natRepr n).data = ['-'] := by rw [h]
  rw [natRepr_data] at this
  have : isDigitCh '-' = true := hdig _ (by rw [this]; exact List.mem_cons_self _ _)
  exact absurd this (by decide)

theorem atoiPos_range {l : List Char} {m : Int} (hm : atoiPos l = some m) :
    0 ≤ m ∧ m ≤ int64Max := by
  unfold atoiPos at hm
  split at hm
  · split at hm
    · injection hm with hm
      subst hm
      refine ⟨by positivity, by assumption⟩
    · exact absurd hm (by simp)
  · exact absurd hm (by simp)

theorem atoiNeg_range {l : List Char} {m : Int} (hm : atoiNeg l = some m) :
    int64Min ≤ m ∧ m ≤ 0 := by
  unfold atoiNeg at hm
  split at hm
  · split at hm
    · injection hm with hm
      subst hm
      refine ⟨by assumption, by omega⟩
    · exact absurd hm (by simp)
  · exact absurd hm (by simp)

theorem atoi_range {s : String} {n : Int} (h : atoi s = some n) :
    int64Min ≤ n ∧ n ≤ int64Max := by
  unfold atoi at h
  split at h
  · exact absurd h (by simp)
  · split at h
    · have := atoiPos_range h
      refine ⟨?_, this.2⟩
      simp only [int64Min]
      omega
    · split at h
      · have := atoiNeg_range h
        refine ⟨this.1, ?_⟩
        simp only [int64Max]
        omega
      · have := atoiPos_range h
        refine ⟨?_, this.2⟩
        simp only [int64Min]
        omega

theorem parseArrayKey_str_ok {s : String} {n : Int}
    (h : parseArrayKey (.str s) = .ok (.index n)) :
    0 ≤ n ∧ itoa n = s ∧ atoi s = some n ∧ s ≠ "-" := by
  simp only [parseArrayKey] at h
  split at h
  · injection h with h2
    exact ArrKey.noConfusion h2
  · rename_i hdash
    split at h
    · exact Except.noConfusion h
    · rename_i parsed ha
      split at h
      · exact Except.noConfusion h
      · rename_i hneg
        split at h
        · exact Except.noConfusion h
        · rename_i hitoa
          simp only [Except.ok.injEq, ArrKey.index.injEq] at h
          subst h
          push_neg at hitoa
          exact ⟨by omega, hitoa, ha, hdash⟩

theorem itoa_nonneg {n : Int} (h : 0 ≤ n) : itoa n = natRepr n.natAbs := by
  unfold itoa
  rw [if_neg (by omega)]

theorem fastAtoi_of_parseArrayKey {s : String} {n : Int}
    (h : parseArrayKey (.str s) = .ok (.index n)) : fastAtoi s = n := by
  obtain ⟨hpos, hitoa, hatoi, _⟩ := parseArrayKey_str_ok h
  have hmax : n ≤ int64Max := (atoi_range hatoi).2
  have hnat : ((n.natAbs : Nat) : Int) = n := Int.natAbs_of_nonneg hpos
  rw [← hitoa, itoa_nonneg hpos, fastAtoi_natRepr (by rw [hnat]; exact hmax), hnat]

theorem atoi_of_parseArrayKey {s : String} {n : Int}
    (h : parseArrayKey (.str s) = .ok (.index n)) : atoi s = some n :=
  (parseArrayKey_str_ok h).2.2.1

theorem parseArrayKey_natRepr {n : Nat} (h : (n : Int) ≤ int64Max) :
    parseArrayKey (.str (natRepr n)) = .ok (.index (n : Int)) := by
  have hpos : (0 : Int) ≤ (n : Int) := by positivity
  have hitoa : ¬ (itoa (n : Int) ≠ natRepr n) := by
    rw [itoa_nonneg hpos]
    simp
  simp only [parseArrayKey, if_neg (natRepr_ne_dash n), atoi_natRepr h,
    if_neg (show ¬ (n : Int) < 0 by omega), if_neg hitoa]


/-! ## Codec lemmas -/

theorem unescape_escape : ∀ l, unescapeList (escapeList l) = l := by
  intro l
  induction l with
  | nil => rfl
  | cons c rest ih =>
    by_cases hc : c = '~'
    · subst hc
      simp [escapeList, unescapeList, ih]
    · by_cases hs : c = '/'
      · subst hs
        simp [escapeList, unescapeList, ih]
      · rw [show escapeList (c :: rest) = c :: escapeList rest by
          simp [escapeList, hc, hs]]
        rw [unescapeList.eq_def]
        simp only [if_neg hc]
        rw [ih]

theorem escape_noSlash : ∀ l, '/' ∉ escapeList l := by
  intro l
  induction l with
  | nil => simp [escapeList]
  | cons c rest ih =>
    by_cases hc : c = '~'
    · subst hc; simp [escapeList, ih]
    · by_cases hs : c = '/'
      · subst hs; simp [escapeList, ih]
      · simp only [escapeList, if_neg hc, if_neg hs]
        intro h
        rcases List.mem_cons.mp h with h | h
        · exact hs h.symm
        · exact ih h

theorem escape_unescape_wf : ∀ l, tildeWF l = true → '/' ∉ l →
    escapeList (unescapeList l) = l := by
  intro l
  induction l using unescapeList.induct with
  | case1 => intro _ _; rfl
  | case2 => intro hwf _; simp [tildeWF] at hwf
  | case3 rest ih =>
    intro hwf hns
    have hwf2 : tildeWF rest = true := by
      rw [tildeWF.eq_def] at hwf
      simp at hwf
      exact hwf
    have hns2 : '/' ∉ rest := fun h => hns (by simp [h])
    simp [unescapeList, escapeList, ih hwf2 hns2]
  | case4 rest h10 ih =>
    intro hwf hns
    have hwf2 : tildeWF rest = true := by
      rw [tildeWF.eq_def] at hwf
      simp at hwf
      exact hwf
    have hns2 : '/' ∉ rest := fun h => hns (by simp [h])
    simp [unescapeList, escapeList, ih hwf2 hns2]
  | case5 c rest h0 h1 ih =>
    intro hwf _
    rw [tildeWF.eq_def] at hwf
    simp [h0, h1] at hwf
  | case6 c rest hc ih =>
    intro hwf hns
    have hwf2 : tildeWF rest = true := by
      rw [tildeWF.eq_def] at hwf
      simp only [if_neg hc] at hwf
      exact hwf
    have hc2 : c ≠ '/' := fun h => hns (by simp [h])
    have hns2 : '/' ∉ rest := fun h => hns (by simp [h])
    rw [unescapeList.eq_def]
    simp only [if_neg hc]
    rw [escapeList.eq_def]
    simp only [if_neg hc, if_neg hc2]
    rw [ih hwf2 hns2]

theorem split_ne_nil : ∀ l, splitOnSlash l ≠ [] := by
  intro l
  induction l using splitOnSlash.induct with
  | case1 => simp [splitOnSlash]
  | case2 rest ih => simp [splitOnSlash]
  | case3 c rest hc s ss hsplit ih =>
    rw [splitOnSlash.eq_def]
    simp only [if_neg hc, hsplit]
    simp
  | case4 c rest hc hsplit ih =>
    rw [splitOnSlash.eq_def]
    simp only [if_neg hc, hsplit]
    simp

theorem join_split : ∀ l, joinSegs (splitOnSlash l) = l := by
  intro l
  induction l using splitOnSlash.induct with
  | case1 => rfl
  | case2 rest ih =>
    rw [show splitOnSlash ('/' :: rest) = [] :: splitOnSlash rest by
      rw [splitOnSlash.eq_def]; simp]
    cases h : splitOnSlash rest with
    | nil => exact absurd h (split_ne_nil rest)
    | cons s ss =>
      rw [show joinSegs ([] :: s :: ss) = [] ++ '/' :: joinSegs (s :: ss) from rfl]
      rw [List.nil_append, ← h, ih]
  | case3 c rest hc s ss hsplit ih =>
    rw [show splitOnSlash (c :: rest) = (c :: s) :: ss by
      rw [splitOnSlash.eq_def]; simp only [if_neg hc, hsplit]]
    rw [hsplit] at ih
    cases ss with
    | nil =>
      rw [show joinSegs [c :: s] = c :: s from rfl]
      rw [show joinSegs [s] = s from rfl] at ih
      rw [ih]
    | cons s2 ss2 =>
      rw [show joinSegs ((c :: s) :: s2 :: ss2) = (c :: s) ++ '/' :: joinSegs (s2 :: ss2) from rfl]
      rw [show joinSegs (s :: s2 :: ss2) = s ++ '/' :: joinSegs (s2 :: ss2) from rfl] at ih
      rw [List.cons_append, ih]
  | case4 c rest hc hsplit ih =>
    exact absurd hsplit (split_ne_nil rest)

theorem noSlash_split : ∀ l, '/' ∉ l → splitOnSlash l = [l] := by
  intro l
  induction l with
  | nil => intro _; rfl
  | cons c rest ih =>
    intro hns
    have hc : ¬ c = '/' := fun h => hns (by simp [h])
    have hrest : '/' ∉ rest := fun h => hns (by simp [h])
    rw [splitOnSlash.eq_def]
    simp only [if_neg hc, ih hrest]

theorem split_append_slash : ∀ l z, '/' ∉ l →
    splitOnSlash (l ++ '/' :: z) = l :: splitOnSlash z := by
  intro l
  induction l with
  | nil =>
    intro z _
    rw [List.nil_append, splitOnSlash.eq_def]
    simp
  | cons c rest ih =>
    intro z hns
    have hc : ¬ c = '/' := fun h => hns (by simp [h])
    have hrest : '/' ∉ rest := fun h => hns (by simp [h])
    rw [List.cons_append, splitOnSlash.eq_def]
    simp only [if_neg hc, ih z hrest]

theorem split_join : ∀ ls : List (List Char), (∀ seg ∈ ls, '/' ∉ seg) → ls ≠ [] →
    splitOnSlash (joinSegs ls) = ls := by
  intro ls
  induction ls using joinSegs.induct with
  | case1 => intro _ h; exact absurd rfl h
  | case2 l =>
    intro hns _
    rw [show joinSegs [l] = l from rfl]
    exact noSlash_split l (hns l (by simp))
  | case3 l rest hne ih =>
    intro hns _
    have hrest : rest ≠ [] := fun h => hne h
    rw [show joinSegs (l :: rest) = l ++ '/' :: joinSegs rest by
      cases rest with
      | nil => exact absurd rfl hrest
      | cons a b => rfl]
    rw [split_append_slash _ _ (hns l (by simp))]
    rw [ih (fun seg hseg => hns seg (by simp [hseg])) hrest]

theorem tildeWF_tail : ∀ c rest, tildeWF (c :: rest) = true → tildeWF rest = true := by
  intro c rest hwf
  by_cases hc : c = '~'
  · subst hc
    cases rest with
    | nil => simp [tildeWF] at hwf
    | cons c2 rest2 =>
      rw [tildeWF.eq_def] at hwf
      simp only [if_pos rfl] at hwf
      have h2 : (c2 = '0' ∨ c2 = '1') ∧ tildeWF rest2 = true := by
        rcases Bool.and_eq_true_iff.mp hwf with ⟨ha, hb⟩
        refine ⟨?_, hb⟩
        rcases Bool.or_eq_true_iff.mp ha with h | h
        · exact Or.inl (by exact decide_eq_true_eq.mp h)
        · exact Or.inr (by exact decide_eq_true_eq.mp h)
      have hc2 : ¬ c2 = '~' := by
        rcases h2.1 with h | h <;> subst h <;> decide
      rw [tildeWF.eq_def]
      simp only [if_neg hc2]
      exact h2.2
  · rw [tildeWF.eq_def] at hwf
    simp only [if_neg hc] at hwf
    exact hwf

theorem joinSegs_cons_head (c : Char) (x : List Char) (t : List (List Char)) :
    joinSegs ((c :: x) :: t) = c :: joinSegs (x :: t) := by
  cases t <;> rfl

theorem join_escUnesc_split : ∀ l, tildeWF l = true →
    joinSegs ((splitOnSlash l).map fun seg => escapeList (unescapeList seg)) = l := by
  intro l
  induction l using tildeWF.induct with
  | case1 => intro _; rfl
  | case2 => intro hwf; simp [tildeWF] at hwf
  | case3 c rest ih =>
    intro hwf
    rw [tildeWF.eq_def] at hwf
    simp only [if_pos rfl, if_true] at hwf
    rcases Bool.and_eq_true_iff.mp hwf with ⟨ha, hb⟩
    have hc01 : c = '0' ∨ c = '1' := by
      rcases Bool.or_eq_true_iff.mp ha with h | h
      · exact Or.inl (decide_eq_true_eq.mp h)
      · exact Or.inr (decide_eq_true_eq.mp h)
    have hcslash : ¬ c = '/' := by rcases hc01 with h | h <;> subst h <;> decide
    have hctilde : ¬ c = '~' := by rcases hc01 with h | h <;> subst h <;> decide
    cases hsplit : splitOnSlash rest with
    | nil => exact absurd hsplit (split_ne_nil rest)
    | cons s ss =>
      have hsplit2 : splitOnSlash ('~' :: c :: rest) = ('~' :: c :: s) :: ss := by
        rw [splitOnSlash.eq_def]
        simp only [if_neg (show ¬ '~' = '/' by decide)]
        rw [splitOnSlash.eq_def]
        simp only [if_neg hcslash, hsplit]
      rw [hsplit2, List.map_cons]
      have hesc : escapeList (unescapeList ('~' :: c :: s))
          = '~' :: c :: escapeList (unescapeList s) := by
        rcases hc01 with h | h <;> subst h
        · rw [show unescapeList ('~' :: '0' :: s) = '~' :: unescapeList s from rfl]
          rfl
        · rw [show unescapeList ('~' :: '1' :: s) = '/' :: unescapeList s from rfl]
          rfl
      rw [hesc, joinSegs_cons_head, joinSegs_cons_head]
      have hih := ih hb
      rw [hsplit, List.map_cons] at hih
      rw [hih]
  | case4 c rest hctilde ih =>
    intro hwf
    have hwfrest : tildeWF rest = true := tildeWF_tail c rest hwf
    have hih := ih hwfrest
    by_cases hcslash : c = '/'
    · subst hcslash
      rw [show splitOnSlash ('/' :: rest) = [] :: splitOnSlash rest by
        rw [splitOnSlash.eq_def]; simp]
      rw [List.map_cons]
      cases hsplit : splitOnSlash rest with
      | nil => exact absurd hsplit (split_ne_nil rest)
      | cons s ss =>
        rw [hsplit] at hih
        rw [show escapeList (unescapeList []) = [] from rfl]
        rw [List.map_cons] at hih ⊢
        rw [show joinSegs ([] :: escapeList (unescapeList s) :: List.map (fun seg => escapeList (unescapeList seg)) ss)
            = [] ++ '/' :: joinSegs (escapeList (unescapeList s) :: List.map (fun seg => escapeList (unescapeList seg)) ss) from rfl]
        rw [List.nil_append, hih]
    · cases hsplit : splitOnSlash rest with
      | nil => exact absurd hsplit (split_ne_nil rest)
      | cons s ss =>
        rw [show splitOnSlash (c :: rest) = (c :: s) :: ss by
          rw [splitOnSlash.eq_def]; simp only [if_neg hcslash, hsplit]]
        rw [hsplit] at hih
        rw [List.map_cons] at hih ⊢
        have hesc2 : escapeList (unescapeList (c :: s))
            = c :: escapeList (unescapeList s) := by
          rw [unescapeList.eq_def]
          simp only [if_neg hctilde]
          rw [escapeList.eq_def]
          simp only [if_neg hctilde, if_neg hcslash]
        rw [hesc2, joinSegs_cons_head, hih]

theorem mk_ne_empty (c : Char) (l : List Char) : (⟨c :: l⟩ : String) ≠ "" := by
  intro h
  have := congrArg String.data h
  simp at this

theorem parse_format : ∀ p : List String,
    parseJsonPointer (formatJsonPointer (p.map Step.str)) = p.map Step.str := by
  intro p
  cases p with
  | nil => rfl
  | cons q qs =>
    rw [show (q :: qs).map Step.str = Step.str q :: qs.map Step.str from rfl]
    rw [show formatJsonPointer (Step.str q :: qs.map Step.str)
        = ⟨'/' :: joinSegs ((Step.str q :: qs.map Step.str).map
            fun c => escapeList (componentToString c).data)⟩ by
      unfold formatJsonPointer
      rfl]
    set ls := (Step.str q :: qs.map Step.str).map
      (fun c => escapeList (componentToString c).data) with hls
    rw [show parseJsonPointer ⟨'/' :: joinSegs ls⟩
        = (splitOnSlash (joinSegs ls)).map (fun seg => Step.str ⟨unescapeList seg⟩) by
      unfold parseJsonPointer
      rw [if_neg (mk_ne_empty _ _)]
      rfl]
    have hnoslash : ∀ seg ∈ ls, '/' ∉ seg := by
      intro seg hseg
      rw [hls] at hseg
      rcases List.mem_map.mp hseg with ⟨st, _, heq⟩
      rw [← heq]
      exact escape_noSlash _
    have hne : ls ≠ [] := by rw [hls]; simp
    rw [split_join ls hnoslash hne, hls, List.map_map]
    have hid : List.map ((fun seg => Step.str ⟨unescapeList seg⟩)
          ∘ fun c => escapeList (componentToString c).data)
        (Step.str q :: qs.map Step.str)
        = List.map id (Step.str q :: qs.map Step.str) := by
      apply List.map_congr_left
      intro st hst
      obtain ⟨r, hr⟩ : ∃ r, st = Step.str r := by
        rcases List.mem_cons.mp hst with h | h
        · exact ⟨q, h⟩
        · rcases List.mem_map.mp h with ⟨r, _, hr⟩
          exact ⟨r, hr.symm⟩
      subst hr
      show Step.str ⟨unescapeList (escapeList r.data)⟩ = Step.str r
      rw [unescape_escape]
    rw [hid, List.map_id]

theorem format_parse_wf : ∀ s : String, s.data.head? = some '/' →
    tildeWF s.data = true → formatJsonPointer (parseJsonPointer s) = s := by
  intro s hhead hwf
  obtain ⟨tail, hdata⟩ : ∃ tail, s.data = '/' :: tail := by
    cases hd : s.data with
    | nil => rw [hd] at hhead; simp at hhead
    | cons c rest =>
      rw [hd] at hhead
      simp at hhead
      exact ⟨rest, by rw [hhead]⟩
  have hne : s ≠ "" := by
    intro h
    rw [h] at hdata
    simp at hdata
  have htail : s.data.tail = tail := by rw [hdata]; rfl
  rw [show parseJsonPointer s
      = (splitOnSlash tail).map (fun seg => Step.str ⟨unescapeList seg⟩) by
    unfold parseJsonPointer
    rw [if_neg hne, htail]]
  have hwftail : tildeWF tail = true := by
    rw [hdata] at hwf
    exact tildeWF_tail _ _ hwf
  cases hsplit : splitOnSlash tail with
  | nil => exact absurd hsplit (split_ne_nil tail)
  | cons s0 ss =>
    rw [show ((s0 :: ss).map fun seg => Step.str ⟨unescapeList seg⟩)
        = Step.str ⟨unescapeList s0⟩ :: ss.map (fun seg => Step.str ⟨unescapeList seg⟩)
        from rfl]
    rw [show formatJsonPointer (Step.str ⟨unescapeList s0⟩
          :: ss.map (fun seg => Step.str ⟨unescapeList seg⟩))
        = ⟨'/' :: joinSegs ((Step.str ⟨unescapeList s0⟩
            :: ss.map (fun seg => Step.str ⟨unescapeList seg⟩)).map
              fun c => escapeList (componentToString c).data)⟩ by
      unfold formatJsonPointer
      rfl]
    have hmapeq : (Step.str ⟨unescapeList s0⟩
          :: ss.map (fun seg => Step.str ⟨unescapeList seg⟩)).map
            (fun c => escapeList (componentToString c).data)
        = (s0 :: ss).map (fun seg => escapeList (unescapeList seg)) := by
      rw [List.map_cons, List.map_map, List.map_cons]
      rfl
    rw [hmapeq, ← hsplit, join_escUnesc_split tail hwftail, ← hdata]

/-! ## List helpers -/

theorem lookup_mem {α β : Type} [BEq α] [LawfulBEq α] {k : α} {v : β} :
    ∀ {m : List (α × β)}, List.lookup k m = some v → (k, v) ∈ m := by
  intro m
  induction m with
  | nil => intro h; simp [List.lookup] at h
  | cons p rest ih =>
    rcases p with ⟨a, b⟩
    intro h
    rw [List.lookup] at h
    cases hk : k == a
    · simp only [hk] at h
      exact List.mem_cons_of_mem _ (ih h)
    · simp only [hk] at h
      injection h with h
      have hka : k = a := eq_of_beq hk
      subst hka
      subst h
      exact List.mem_cons_self _ _

theorem getD_mem {α : Type} : ∀ (xs : List α) (i : Nat) (d : α), i < xs.length →
    xs.getD i d ∈ xs := by
  intro xs
  induction xs with
  | nil => intro i d h; simp at h
  | cons x rest ih =>
    intro i d h
    cases i with
    | zero => exact List.mem_cons_self _ _
    | succ j =>
      right
      exact ih j d (by simp at h; omega)

/-! ## Membership lemmas for the well-formedness predicates -/

theorem noPtrAnyList_mem {xs : List GoVal} (h : noPtrAnyList xs = true) {v : GoVal}
    (hm : v ∈ xs) : noPtrAny v = true := by
  induction xs with
  | nil => simp at hm
  | cons x rest ih =>
    rw [noPtrAnyList] at h
    rcases Bool.and_eq_true_iff.mp h with ⟨h1, h2⟩
    rcases List.mem_cons.mp hm with hv | hv
    · subst hv; exact h1
    · exact ih h2 hv

theorem noPtrAnyPairs_mem {m : List (String × GoVal)} (h : noPtrAnyPairs m = true)
    {k : String} {v : GoVal} (hm : (k, v) ∈ m) : noPtrAny v = true := by
  induction m with
  | nil => simp at hm
  | cons p rest ih =>
    rw [noPtrAnyPairs] at h
    rcases p with ⟨a, b⟩
    rcases Bool.and_eq_true_iff.mp h with ⟨h1, h2⟩
    rcases List.mem_cons.mp hm with hv | hv
    · injection hv with hv1 hv2
      subst hv2
      exact h1
    · exact ih h2 hv

theorem noMapIntKeyList_mem {xs : List GoVal} (h : noMapIntKeyList xs = true) {v : GoVal}
    (hm : v ∈ xs) : noMapIntKey v = true := by
  induction xs with
  | nil => simp at hm
  | cons x rest ih =>
    rw [noMapIntKeyList] at h
    rcases Bool.and_eq_true_iff.mp h with ⟨h1, h2⟩
    rcases List.mem_cons.mp hm with hv | hv
    · subst hv; exact h1
    · exact ih h2 hv

theorem noMapIntKeyPairs_mem {m : List (String × GoVal)} (h : noMapIntKeyPairs m = true)
    {k : String} {v : GoVal} (hm : (k, v) ∈ m) : noMapIntKey v = true := by
  induction m with
  | nil => simp at hm
  | cons p rest ih =>
    rw [noMapIntKeyPairs] at h
    rcases p with ⟨a, b⟩
    rcases Bool.and_eq_true_iff.mp h with ⟨h1, h2⟩
    rcases List.mem_cons.mp hm with hv | hv
    · injection hv with hv1 hv2
      subst hv2
      exact h1
    · exact ih h2 hv

/-! ## Tier equivalence lemmas for get (src/get.go) -/

theorem fastGet_true_spec : ∀ (cur : GoVal) (k : Step) (v : GoVal),
    noPtrAny cur = true → fastGet cur k = (v, true) →
    noPtrAny v = true ∧ ∀ rest, getFallback cur (k :: rest) = getFallback v rest := by
  intro cur k v hnp h
  cases cur with
  | null => simp [fastGet] at h
  | vstr s => simp [fastGet] at h
  | vint n => simp [fastGet] at h
  | vbool b => simp [fastGet] at h
  | arrStr xs => simp [fastGet] at h
  | arrInt xs => simp [fastGet] at h
  | arrOther xs => simp [fastGet] at h
  | mapStr m => simp [fastGet] at h
  | mapInt m => simp [fastGet] at h
  | mapStrOther m => simp [fastGet] at h
  | mapIntKey m => simp [fastGet] at h
  | strct fields => simp [fastGet] at h
  | mapAny m =>
    cases k with
    | int n => simp [fastGet] at h
    | str ks =>
      cases hlk : List.lookup ks m with
      | none =>
        simp only [fastGet, hlk] at h
        simp at h
      | some w =>
        simp only [fastGet, hlk] at h
        injection h with h1 h2
        subst h1
        constructor
        · exact noPtrAnyPairs_mem hnp (lookup_mem hlk)
        · intro rest
          have hred : getFallback (.mapAny m) (.str ks :: rest)
              = getFallback ((List.lookup ks m).getD .null) rest := rfl
          rw [hred, hlk]
          rfl
  | ptr t p =>
    cases t with
    | tAny => simp [noPtrAny] at hnp
    | tOther => cases p <;> simp [fastGet] at h
    | tMapAny =>
      cases p with
      | none => simp [fastGet] at h
      | some q =>
        cases q with
        | mapAny m =>
          cases k with
          | int n => simp [fastGet] at h
          | str ks =>
            cases hlk : List.lookup ks m with
            | none =>
              simp only [fastGet, hlk] at h
              simp at h
            | some w =>
              simp only [fastGet, hlk] at h
              injection h with h1 h2
              subst h1
              constructor
              · exact noPtrAnyPairs_mem hnp (lookup_mem hlk)
              · intro rest
                have hred : getFallback (.ptr .tMapAny (some (.mapAny m))) (.str ks :: rest)
                    = getFallback ((List.lookup ks m).getD .null) rest := rfl
                rw [hred, hlk]
                rfl
        | null => simp [fastGet] at h
        | vstr s => simp [fastGet] at h
        | vint n => simp [fastGet] at h
        | vbool b => simp [fastGet] at h
        | arrAny xs => simp [fastGet] at h
        | arrStr xs => simp [fastGet] at h
        | arrInt xs => simp [fastGet] at h
        | arrOther xs => simp [fastGet] at h
        | mapStr m => simp [fastGet] at h
        | mapInt m => simp [fastGet] at h
        | mapStrOther m => simp [fastGet] at h
        | mapIntKey m => simp [fastGet] at h
        | ptr t2 p2 => simp [fastGet] at h
        | strct fields => simp [fastGet] at h
    | tArrAny =>
      cases p with
      | none => simp [fastGet] at h
      | some q =>
        cases q with
        | arrAny xs =>
          by_cases hks : componentToString k = "-"
          · simp only [fastGet, hks] at h
            simp at h
          · by_cases hbound : fastAtoi (componentToString k) < 0
                ∨ (xs.length : Int) ≤ fastAtoi (componentToString k)
            · simp only [fastGet, if_neg hks, if_pos hbound] at h
              simp at h
            · simp only [fastGet, if_neg hks, if_neg hbound] at h
              injection h with h1 h2
              subst h1
              have hlen : (fastAtoi (componentToString k)).toNat < xs.length := by
                push_neg at hbound
                omega
              constructor
              · exact noPtrAnyList_mem hnp (getD_mem _ _ _ hlen)
              · intro rest
                have htry : tryArrayAccess (.ptr .tArrAny (some (.arrAny xs))) (tokenOf k)
                    = TryRes.res (xs.getD (fastAtoi (componentToString k)).toNat .null) := by
                  rw [show tryArrayAccess (.ptr .tArrAny (some (.arrAny xs))) (tokenOf k)
                      = (if componentToString k = "-" then TryRes.res .null
                         else if fastAtoi (componentToString k) < 0
                             ∨ (xs.length : Int) ≤ fastAtoi (componentToString k) then
                           TryRes.res .null
                         else TryRes.res
                           (xs.getD (fastAtoi (componentToString k)).toNat .null)) from rfl]
                  rw [if_neg hks, if_neg hbound]
                rw [show getFallback (.ptr .tArrAny (some (.arrAny xs))) (k :: rest)
                    = (match tryArrayAccess (.ptr .tArrAny (some (.arrAny xs))) (tokenOf k) with
                       | .res w => getFallback w rest
                       | .panicked => GetRes.panicked
                       | .unhandled =>
                         match tryObjectAccess (.ptr .tArrAny (some (.arrAny xs))) (tokenOf k) with
                         | .res w => getFallback w rest
                         | .panicked => GetRes.panicked
                         | .unhandled => GetRes.ok .null) from rfl]
                rw [htry]
        | null => simp [fastGet] at h
        | vstr s => simp [fastGet] at h
        | vint n => simp [fastGet] at h
        | vbool b => simp [fastGet] at h
        | arrStr xs => simp [fastGet] at h
        | arrInt xs => simp [fastGet] at h
        | arrOther xs => simp [fastGet] at h
        | mapAny m => simp [fastGet] at h
        | mapStr m => simp [fastGet] at h
        | mapInt m => simp [fastGet] at h
        | mapStrOther m => simp [fastGet] at h
        | mapIntKey m => simp [fastGet] at h
        | ptr t2 p2 => simp [fastGet] at h
        | strct fields => simp [fastGet] at h
  | arrAny xs =>
    by_cases hks : componentToString k = "-"
    · simp only [fastGet, hks] at h
      simp at h
    · by_cases hbound : fastAtoi (componentToString k) < 0
          ∨ (xs.length : Int) ≤ fastAtoi (componentToString k)
      · simp only [fastGet, if_neg hks, if_pos hbound] at h
        simp at h
      · simp only [fastGet, if_neg hks, if_neg hbound] at h
        injection h with h1 h2
        subst h1
        have hlen : (fastAtoi (componentToString k)).toNat < xs.length := by
          push_neg at hbound
          omega
        constructor
        · exact noPtrAnyList_mem hnp (getD_mem _ _ _ hlen)
        · intro rest
          have htry : tryArrayAccess (.arrAny xs) (tokenOf k)
              = TryRes.res (xs.getD (fastAtoi (componentToString k)).toNat .null) := by
            rw [show tryArrayAccess (.arrAny xs) (tokenOf k)
                = (if componentToString k = "-" then TryRes.res .null
                   else if fastAtoi (componentToString k) < 0
                       ∨ (xs.length : Int) ≤ fastAtoi (componentToString k) then
                     TryRes.res .null
                   else TryRes.res
                     (xs.getD (fastAtoi (componentToString k)).toNat .null)) from rfl]
            rw [if_neg hks, if_neg hbound]
          rw [show getFallback (.arrAny xs) (k :: rest)
              = (match tryArrayAccess (.arrAny xs) (tokenOf k) with
                 | .res w => getFallback w rest
                 | .panicked => GetRes.panicked
                 | .unhandled =>
                   match tryObjectAccess (.arrAny xs) (tokenOf k) with
                   | .res w => getFallback w rest
                   | .panicked => GetRes.panicked
                   | .unhandled => GetRes.ok .null) from rfl]
          rw [htry]

theorem get_eq_fallback : ∀ (path : List Step) (doc : GoVal), noPtrAny doc = true →
    getLoop doc path = getFallback doc path := by
  intro path
  induction path with
  | nil => intro doc _; rfl
  | cons k rest ih =>
    intro doc hnp
    cases hf : fastGet doc k with
    | mk v b =>
      cases b
      · rw [show getLoop doc (k :: rest) = getFallback doc (k :: rest) by
          rw [getLoop]
          simp only [hf]]
      · obtain ⟨hv, hstep⟩ := fastGet_true_spec doc k v hnp hf
        rw [show getLoop doc (k :: rest) = getLoop v rest by
          rw [getLoop]
          simp only [hf]]
        rw [ih v hv, hstep rest]

/-! ## Tier equivalence lemmas for find (src/find.go) -/

theorem findStep_arrOther_eq (xs : List GoVal) (k : Step) :
    findStep (.arrOther xs) k = (findStep (.arrAny xs) k).setObj (.arrOther xs) := by
  show findStepBase (.arrOther xs) k = (findStepBase (.arrAny xs) k).setObj (.arrOther xs)
  cases hp : parseArrayKey k with
  | error e => simp [findStepBase, hp, StepRes.setObj]
  | ok ak => cases ak <;> simp [findStepBase, hp, StepRes.setObj]

theorem findStep_mapStrOther_eq (m : List (String × GoVal)) (k : Step) :
    findStep (.mapStrOther m) k = (findStep (.mapAny m) k).setObj (.mapStrOther m) := by
  cases k <;> rfl

theorem tryArrayAccess_arrOther_eq (xs : List GoVal) (t : InternalToken) :
    tryArrayAccess (.arrOther xs) t = tryArrayAccess (.arrAny xs) t := by
  by_cases h1 : t.key = "-"
  · simp [tryArrayAccess, isArray, h1]
  · by_cases h2 : t.index < 0
    · simp [tryArrayAccess, isArray, h1, h2, sliceLen]
    · by_cases h3 : (xs.length : Int) ≤ t.index
      · simp [tryArrayAccess, isArray, h1, h2, h3, sliceLen]
      · simp [tryArrayAccess, isArray, h1, h2, h3, sliceLen, sliceElem]

theorem tryObjectAccess_mapStrOther_eq (m : List (String × GoVal)) (t : InternalToken) :
    tryObjectAccess (.mapStrOther m) t = tryObjectAccess (.mapAny m) t := rfl

/-! ## Totality lemmas for get (src/get.go) -/

theorem fastGet_noMapIntKey : ∀ (cur : GoVal) (k : Step) (v : GoVal) (b : Bool),
    noMapIntKey cur = true → fastGet cur k = (v, b) → noMapIntKey v = true := by
  intro cur k
  induction cur, k using fastGet.induct with
  | case1 m ks w hlk =>
    intro v b hnm h
    simp only [fastGet, hlk] at h
    injection h with h1 h2
    subst h1
    exact noMapIntKeyPairs_mem hnm (lookup_mem hlk)
  | case2 m ks hlk =>
    intro v b hnm h
    simp only [fastGet, hlk] at h
    injection h with h1 h2
    subst h1
    rfl
  | case3 m step hns =>
    intro v b hnm h
    cases step with
    | str ks => exact absurd rfl (hns ks)
    | int n =>
      simp only [fastGet] at h
      injection h with h1 h2
      subst h1
      rfl
  | case4 x =>
    intro v b hnm h
    simp only [fastGet] at h
    injection h with h1 h2
    subst h1
    rfl
  | case5 m ks w hlk =>
    intro v b hnm h
    simp only [fastGet, hlk] at h
    injection h with h1 h2
    subst h1
    exact noMapIntKeyPairs_mem hnm (lookup_mem hlk)
  | case6 m ks hlk =>
    intro v b hnm h
    simp only [fastGet, hlk] at h
    injection h with h1 h2
    subst h1
    rfl
  | case7 step m hns =>
    intro v b hnm h
    cases step with
    | str ks => exact absurd rfl (hns ks)
    | int n =>
      simp only [fastGet] at h
      injection h with h1 h2
      subst h1
      rfl
  | case8 p step hnp =>
    intro v b hnm h
    cases p with
    | mapAny m => exact absurd rfl (hnp m)
    | null => injection h with h1 h2; subst h1; rfl
    | vstr s => injection h with h1 h2; subst h1; rfl
    | vint n => injection h with h1 h2; subst h1; rfl
    | vbool bb => injection h with h1 h2; subst h1; rfl
    | arrAny xs => injection h with h1 h2; subst h1; rfl
    | arrStr xs => injection h with h1 h2; subst h1; rfl
    | arrInt xs => injection h with h1 h2; subst h1; rfl
    | arrOther xs => injection h with h1 h2; subst h1; rfl
    | mapStr mm => injection h with h1 h2; subst h1; rfl
    | mapInt mm => injection h with h1 h2; subst h1; rfl
    | mapStrOther mm => injection h with h1 h2; subst h1; rfl
    | mapIntKey mm => injection h with h1 h2; subst h1; rfl
    | ptr t2 p2 => injection h with h1 h2; subst h1; rfl
    | strct fields => injection h with h1 h2; subst h1; rfl
  | case9 xs step ks hdash =>
    intro v b hnm h
    simp only [fastGet] at h
    have hd : componentToString step = "-" := hdash
    rw [if_pos hd] at h
    injection h with h1 h2
    subst h1
    rfl
  | case10 xs step ks hdash i hout =>
    intro v b hnm h
    simp only [fastGet] at h
    have hd : ¬ componentToString step = "-" := hdash
    have ho : fastAtoi (componentToString step) < 0
        ∨ (xs.length : Int) ≤ fastAtoi (componentToString step) := hout
    rw [if_neg hd, if_pos ho] at h
    injection h with h1 h2
    subst h1
    rfl
  | case11 xs step ks hdash i hin =>
    intro v b hnm h
    simp only [fastGet] at h
    have hd : ¬ componentToString step = "-" := hdash
    have ho : ¬ (fastAtoi (componentToString step) < 0
        ∨ (xs.length : Int) ≤ fastAtoi (componentToString step)) := hin
    rw [if_neg hd, if_neg ho] at h
    injection h with h1 h2
    subst h1
    have hlen : (fastAtoi (componentToString step)).toNat < xs.length := by
      push_neg at ho
      omega
    exact noMapIntKeyList_mem hnm (getD_mem _ _ _ hlen)
  | case12 x =>
    intro v b hnm h
    simp only [fastGet] at h
    injection h with h1 h2
    subst h1
    rfl
  | case13 step xs ks hdash =>
    intro v b hnm h
    simp only [fastGet] at h
    have hd : componentToString step = "-" := hdash
    rw [if_pos hd] at h
    injection h with h1 h2
    subst h1
    rfl
  | case14 step xs ks hdash i hout =>
    intro v b hnm h
    simp only [fastGet] at h
    have hd : ¬ componentToString step = "-" := hdash
    have ho : fastAtoi (componentToString step) < 0
        ∨ (xs.length : Int) ≤ fastAtoi (componentToString step) := hout
    rw [if_neg hd, if_pos ho] at h
    injection h with h1 h2
    subst h1
    rfl
  | case15 step xs ks hdash i hin =>
    intro v b hnm h
    simp only [fastGet] at h
    have hd : ¬ componentToString step = "-" := hdash
    have ho : ¬ (fastAtoi (componentToString step) < 0
        ∨ (xs.length : Int) ≤ fastAtoi (componentToString step)) := hin
    rw [if_neg hd, if_neg ho] at h
    injection h with h1 h2
    subst h1
    have hlen : (fastAtoi (componentToString step)).toNat < xs.length := by
      push_neg at ho
      omega
    exact noMapIntKeyList_mem hnm (getD_mem _ _ _ hlen)
  | case16 p step hnp =>
    intro v b hnm h
    cases p with
    | arrAny xs => exact absurd rfl (hnp xs)
    | null => injection h with h1 h2; subst h1; rfl
    | vstr s => injection h with h1 h2; subst h1; rfl
    | vint n => injection h with h1 h2; subst h1; rfl
    | vbool bb => injection h with h1 h2; subst h1; rfl
    | arrStr xs => injection h with h1 h2; subst h1; rfl
    | arrInt xs => injection h with h1 h2; subst h1; rfl
    | arrOther xs => injection h with h1 h2; subst h1; rfl
    | mapAny mm => injection h with h1 h2; subst h1; rfl
    | mapStr mm => injection h with h1 h2; subst h1; rfl
    | mapInt mm => injection h with h1 h2; subst h1; rfl
    | mapStrOther mm => injection h with h1 h2; subst h1; rfl
    | mapIntKey mm => injection h with h1 h2; subst h1; rfl
    | ptr t2 p2 => injection h with h1 h2; subst h1; rfl
    | strct fields => injection h with h1 h2; subst h1; rfl
  | case17 x =>
    intro v b hnm h
    simp only [fastGet] at h
    injection h with h1 h2
    subst h1
    rfl
  | case18 q step ih =>
    intro v b hnm h
    exact ih v b hnm h
  | case19 t x hn1 hn2 hn3 hn4 hn5 hn6 hn7 hn8 =>
    intro v b hnm h
    cases t with
    | mapAny m => exact absurd rfl (hn1 m)
    | arrAny xs => exact absurd rfl (hn4 xs)
    | ptr pt p =>
      cases pt with
      | tMapAny =>
        cases p with
        | none => exact absurd rfl hn2
        | some q => exact absurd rfl (hn3 q)
      | tArrAny =>
        cases p with
        | none => exact absurd rfl hn5
        | some q => exact absurd rfl (hn6 q)
      | tAny =>
        cases p with
        | none => exact absurd rfl hn7
        | some q => exact absurd rfl (hn8 q)
      | tOther =>
        injection h with h1 h2
        subst h1
        rfl
    | null => injection h with h1 h2; subst h1; rfl
    | vstr s => injection h with h1 h2; subst h1; rfl
    | vint n => injection h with h1 h2; subst h1; rfl
    | vbool bb => injection h with h1 h2; subst h1; rfl
    | arrStr xs => injection h with h1 h2; subst h1; rfl
    | arrInt xs => injection h with h1 h2; subst h1; rfl
    | arrOther xs => injection h with h1 h2; subst h1; rfl
    | mapStr mm => injection h with h1 h2; subst h1; rfl
    | mapInt mm => injection h with h1 h2; subst h1; rfl
    | mapStrOther mm => injection h with h1 h2; subst h1; rfl
    | mapIntKey mm => injection h with h1 h2; subst h1; rfl
    | strct fields => injection h with h1 h2; subst h1; rfl

theorem tryArrayAccess_spec : ∀ (cur : GoVal) (t : InternalToken), noMapIntKey cur = true →
    tryArrayAccess cur t ≠ .panicked ∧
    ∀ v, tryArrayAccess cur t = .res v → noMapIntKey v = true := by
  intro cur t hnm
  cases cur with
  | arrAny xs =>
    constructor
    · simp only [tryArrayAccess]
      split
      · simp
      · split <;> simp
    · intro v hv
      simp only [tryArrayAccess] at hv
      split at hv
      · injection hv with hv; subst hv; rfl
      · split at hv
        · injection hv with hv; subst hv; rfl
        · injection hv with hv
          subst hv
          rename_i h1 h2
          have hlen : t.index.toNat < xs.length := by
            push_neg at h2
            omega
          exact noMapIntKeyList_mem hnm (getD_mem _ _ _ hlen)
  | arrStr xs =>
    constructor
    · simp only [tryArrayAccess]
      split
      · simp
      · split <;> simp
    · intro v hv
      simp only [tryArrayAccess] at hv
      split at hv
      · injection hv with hv; subst hv; rfl
      · split at hv
        · injection hv with hv; subst hv; rfl
        · injection hv with hv; subst hv; rfl
  | arrInt xs =>
    constructor
    · simp only [tryArrayAccess]
      split
      · simp
      · split <;> simp
    · intro v hv
      simp only [tryArrayAccess] at hv
      split at hv
      · injection hv with hv; subst hv; rfl
      · split at hv
        · injection hv with hv; subst hv; rfl
        · injection hv with hv; subst hv; rfl
  | arrOther xs =>
    constructor
    · simp only [tryArrayAccess, isArray]
      simp only [Bool.not_true, Bool.false_eq_true, if_false]
      split
      · simp
      · split
        · simp
        · split <;> simp
    · intro v hv
      simp only [tryArrayAccess, isArray] at hv
      simp only [Bool.not_true, Bool.false_eq_true, if_false] at hv
      split at hv
      · injection hv with hv; subst hv; rfl
      · split at hv
        · injection hv with hv; subst hv; rfl
        · split at hv
          · injection hv with hv; subst hv; rfl
          · injection hv with hv
            subst hv
            rename_i h1 h2 h3
            have hlen : t.index.toNat < xs.length := by
              simp only [sliceLen] at h3
              push_neg at h3
              omega
            show noMapIntKey (xs.getD t.index.toNat .null) = true
            exact noMapIntKeyList_mem hnm (getD_mem _ _ _ hlen)
  | ptr pt p =>
    cases pt with
    | tArrAny =>
      cases p with
      | none =>
        exact ⟨by simp [tryArrayAccess], fun v hv => by
          simp only [tryArrayAccess] at hv
          injection hv with hv
          subst hv
          rfl⟩
      | some q =>
        cases q with
        | arrAny xs =>
          constructor
          · simp only [tryArrayAccess]
            split
            · simp
            · split <;> simp
          · intro v hv
            simp only [tryArrayAccess] at hv
            split at hv
            · injection hv with hv; subst hv; rfl
            · split at hv
              · injection hv with hv; subst hv; rfl
              · injection hv with hv
                subst hv
                rename_i h1 h2
                have hlen : t.index.toNat < xs.length := by
                  push_neg at h2
                  omega
                exact noMapIntKeyList_mem hnm (getD_mem _ _ _ hlen)
        | null => exact ⟨by simp [tryArrayAccess], fun v hv => by
            simp only [tryArrayAccess] at hv
            injection hv with hv
            subst hv
            rfl⟩
        | vstr s => exact ⟨by simp [tryArrayAccess], fun v hv => by
            simp only [tryArrayAccess] at hv
            injection hv with hv
            subst hv
            rfl⟩
        | vint n => exact ⟨by simp [tryArrayAccess], fun v hv => by
            simp only [tryArrayAccess] at hv
            injection hv with hv
            subst hv
            rfl⟩
        | vbool bb => exact ⟨by simp [tryArrayAccess], fun v hv => by
            simp only [tryArrayAccess] at hv
            injection hv with hv
            subst hv
            rfl⟩
        | arrStr xs => exact ⟨by simp [tryArrayAccess], fun v hv => by
            simp only [tryArrayAccess] at hv
            injection hv with hv
            subst hv
            rfl⟩
        | arrInt xs => exact ⟨by simp [tryArrayAccess], fun v hv => by
            simp only [tryArrayAccess] at hv
            injection hv with hv
            subst hv
            rfl⟩
        | arrOther xs => exact ⟨by simp [tryArrayAccess], fun v hv => by
            simp only [tryArrayAccess] at hv
            injection hv with hv
            subst hv
            rfl⟩
        | mapAny m => exact ⟨by simp [tryArrayAccess], fun v hv => by
            simp only [tryArrayAccess] at hv
            injection hv with hv
            subst hv
            rfl⟩
        | mapStr m => exact ⟨by simp [tryArrayAccess], fun v hv => by
            simp only [tryArrayAccess] at hv
            injection hv with hv
            subst hv
            rfl⟩
        | mapInt m => exact ⟨by simp [tryArrayAccess], fun v hv => by
            simp only [tryArrayAccess] at hv
            injection hv with hv
            subst hv
            rfl⟩
        | mapStrOther m => exact ⟨by simp [tryArrayAccess], fun v hv => by
            simp only [tryArrayAccess] at hv
            injection hv with hv
            subst hv
            rfl⟩
        | mapIntKey m => exact ⟨by simp [tryArrayAccess], fun v hv => by
            simp only [tryArrayAccess] at hv
            injection hv with hv
            subst hv
            rfl⟩
        | ptr t2 p2 => exact ⟨by simp [tryArrayAccess], fun v hv => by
            simp only [tryArrayAccess] at hv
            injection hv with hv
            subst hv
            rfl⟩
        | strct fields => exact ⟨by simp [tryArrayAccess], fun v hv => by
            simp only [tryArrayAccess] at hv
            injection hv with hv
            subst hv
            rfl⟩
    | tMapAny =>
      exact ⟨by simp [tryArrayAccess, isArray], fun v hv => by
        simp [tryArrayAccess, isArray] at hv⟩
    | tAny =>
      exact ⟨by simp [tryArrayAccess, isArray], fun v hv => by
        simp [tryArrayAccess, isArray] at hv⟩
    | tOther =>
      exact ⟨by simp [tryArrayAccess, isArray], fun v hv => by
        simp [tryArrayAccess, isArray] at hv⟩
  | null =>
    exact ⟨by simp [tryArrayAccess, isArray], fun v hv => by
      simp [tryArrayAccess, isArray] at hv⟩
  | vstr s =>
    exact ⟨by simp [tryArrayAccess, isArray], fun v hv => by
      simp [tryArrayAccess, isArray] at hv⟩
  | vint n =>
    exact ⟨by simp [tryArrayAccess, isArray], fun v hv => by
      simp [tryArrayAccess, isArray] at hv⟩
  | vbool bb =>
    exact ⟨by simp [tryArrayAccess, isArray], fun v hv => by
      simp [tryArrayAccess, isArray] at hv⟩
  | mapAny m =>
    exact ⟨by simp [tryArrayAccess, isArray], fun v hv => by
      simp [tryArrayAccess, isArray] at hv⟩
  | mapStr m =>
    exact ⟨by simp [tryArrayAccess, isArray], fun v hv => by
      simp [tryArrayAccess, isArray] at hv⟩
  | mapInt m =>
    exact ⟨by simp [tryArrayAccess, isArray], fun v hv => by
      simp [tryArrayAccess, isArray] at hv⟩
  | mapStrOther m =>
    exact ⟨by simp [tryArrayAccess, isArray], fun v hv => by
      simp [tryArrayAccess, isArray] at hv⟩
  | mapIntKey m =>
    exact ⟨by simp [tryArrayAccess, isArray], fun v hv => by
      simp [tryArrayAccess, isArray] at hv⟩
  | strct fields =>
    exact ⟨by simp [tryArrayAccess, isArray], fun v hv => by
      simp [tryArrayAccess, isArray] at hv⟩

theorem tryObjectAccess_spec : ∀ (cur : GoVal) (t : InternalToken), noMapIntKey cur = true →
    tryObjectAccess cur t ≠ .panicked ∧
    ∀ v, tryObjectAccess cur t = .res v → noMapIntKey v = true := by
  intro cur t hnm
  cases cur with
  | mapAny m =>
    constructor
    · simp [tryObjectAccess]
    · intro v hv
      simp only [tryObjectAccess] at hv
      injection hv with hv
      subst hv
      cases hlk : List.lookup t.key m with
      | none => rfl
      | some w =>
        exact noMapIntKeyPairs_mem hnm (lookup_mem hlk)
  | mapStr m =>
    constructor
    · simp [tryObjectAccess]
    · intro v hv
      simp only [tryObjectAccess] at hv
      injection hv with hv
      subst hv
      cases hlk : List.lookup t.key m with
      | none => rfl
      | some w => rfl
  | mapInt m =>
    constructor
    · simp [tryObjectAccess]
    · intro v hv
      simp only [tryObjectAccess] at hv
      injection hv with hv
      subst hv
      cases hlk : List.lookup t.key m with
      | none => rfl
      | some w => rfl
  | mapStrOther m =>
    constructor
    · simp [tryObjectAccess, isObject]
    · intro v hv
      simp only [tryObjectAccess, isObject] at hv
      simp only [Bool.not_true, Bool.false_eq_true, if_false] at hv
      injection hv with hv
      subst hv
      cases hlk : List.lookup t.key m with
      | none => rfl
      | some w =>
        exact noMapIntKeyPairs_mem hnm (lookup_mem hlk)
  | mapIntKey m => simp [noMapIntKey] at hnm
  | strct fields =>
    constructor
    · simp [tryObjectAccess, isObject]
    · intro v hv
      simp only [tryObjectAccess, isObject] at hv
      simp only [Bool.not_true, Bool.false_eq_true, if_false] at hv
      injection hv with hv
      subst hv
      cases hlk : List.lookup t.key fields with
      | none => rfl
      | some w =>
        exact noMapIntKeyPairs_mem hnm (lookup_mem hlk)
  | null =>
    exact ⟨by simp [tryObjectAccess, isObject], fun v hv => by
      simp [tryObjectAccess, isObject] at hv⟩
  | vstr s =>
    exact ⟨by simp [tryObjectAccess, isObject], fun v hv => by
      simp [tryObjectAccess, isObject] at hv⟩
  | vint n =>
    exact ⟨by simp [tryObjectAccess, isObject], fun v hv => by
      simp [tryObjectAccess, isObject] at hv⟩
  | vbool bb =>
    exact ⟨by simp [tryObjectAccess, isObject], fun v hv => by
      simp [tryObjectAccess, isObject] at hv⟩
  | arrAny xs =>
    exact ⟨by simp [tryObjectAccess, isObject], fun v hv => by
      simp [tryObjectAccess, isObject] at hv⟩
  | arrStr xs =>
    exact ⟨by simp [tryObjectAccess, isObject], fun v hv => by
      simp [tryObjectAccess, isObject] at hv⟩
  | arrInt xs =>
    exact ⟨by simp [tryObjectAccess, isObject], fun v hv => by
      simp [tryObjectAccess, isObject] at hv⟩
  | arrOther xs =>
    exact ⟨by simp [tryObjectAccess, isObject], fun v hv => by
      simp [tryObjectAccess, isObject] at hv⟩
  | ptr pt p =>
    cases pt with
    | tMapAny =>
      cases p with
      | none =>
        exact ⟨by simp [tryObjectAccess], fun v hv => by
          simp only [tryObjectAccess] at hv
          injection hv with hv
          subst hv
          rfl⟩
      | some q =>
        cases q with
        | mapAny m =>
          constructor
          · simp [tryObjectAccess]
          · intro v hv
            simp only [tryObjectAccess] at hv
            injection hv with hv
            subst hv
            cases hlk : List.lookup t.key m with
            | none => rfl
            | some w =>
              exact noMapIntKeyPairs_mem hnm (lookup_mem hlk)
        | null => exact ⟨by simp [tryObjectAccess], fun v hv => by
            simp only [tryObjectAccess] at hv
            injection hv with hv
            subst hv
            rfl⟩
        | vstr s => exact ⟨by simp [tryObjectAccess], fun v hv => by
            simp only [tryObjectAccess] at hv
            injection hv with hv
            subst hv
            rfl⟩
        | vint n => exact ⟨by simp [tryObjectAccess], fun v hv => by
            simp only [tryObjectAccess] at hv
            injection hv with hv
            subst hv
            rfl⟩
        | vbool bb => exact ⟨by simp [tryObjectAccess], fun v hv => by
            simp only [tryObjectAccess] at hv
            injection hv with hv
            subst hv
            rfl⟩
        | arrAny xs => exact ⟨by simp [tryObjectAccess], fun v hv => by
            simp only [tryObjectAccess] at hv
            injection hv with hv
            subst hv
            rfl⟩
        | arrStr xs => exact ⟨by simp [tryObjectAccess], fun v hv => by
            simp only [tryObjectAccess] at hv
            injection hv with hv
            subst hv
            rfl⟩
        | arrInt xs => exact ⟨by simp [tryObjectAccess], fun v hv => by
            simp only [tryObjectAccess] at hv
            injection hv with hv
            subst hv
            rfl⟩
        | arrOther xs => exact ⟨by simp [tryObjectAccess], fun v hv => by
            simp only [tryObjectAccess] at hv
            injection hv with hv
            subst hv
            rfl⟩
        | mapStr m => exact ⟨by simp [tryObjectAccess], fun v hv => by
            simp only [tryObjectAccess] at hv
            injection hv with hv
            subst hv
            rfl⟩
        | mapInt m => exact ⟨by simp [tryObjectAccess], fun v hv => by
            simp only [tryObjectAccess] at hv
            injection hv with hv
            subst hv
            rfl⟩
        | mapStrOther m => exact ⟨by simp [tryObjectAccess], fun v hv => by
            simp only [tryObjectAccess] at hv
            injection hv with hv
            subst hv
            rfl⟩
        | mapIntKey m => exact ⟨by simp [tryObjectAccess], fun v hv => by
            simp only [tryObjectAccess] at hv
            injection hv with hv
            subst hv
            rfl⟩
        | ptr t2 p2 => exact ⟨by simp [tryObjectAccess], fun v hv => by
            simp only [tryObjectAccess] at hv
            injection hv with hv
            subst hv
            rfl⟩
        | strct fields => exact ⟨by simp [tryObjectAccess], fun v hv => by
            simp only [tryObjectAccess] at hv
            injection hv with hv
            subst hv
            rfl⟩
    | tAny =>
      exact ⟨by simp [tryObjectAccess, isObject], fun v hv => by
        simp [tryObjectAccess, isObject] at hv⟩
    | tArrAny =>
      exact ⟨by simp [tryObjectAccess, isObject], fun v hv => by
        simp [tryObjectAccess, isObject] at hv⟩
    | tOther =>
      cases p with
      | none =>
        exact ⟨by simp [tryObjectAccess, isObject], fun v hv => by
          simp [tryObjectAccess, isObject] at hv⟩
      | some q =>
        cases q with
        | strct fields =>
          constructor
          · simp [tryObjectAccess, isObject]
          · intro v hv
            simp only [tryObjectAccess, isObject] at hv
            simp only [Bool.not_true, Bool.false_eq_true, if_false] at hv
            injection hv with hv
            subst hv
            cases hlk : List.lookup t.key fields with
            | none => rfl
            | some w =>
              exact noMapIntKeyPairs_mem hnm (lookup_mem hlk)
        | null => exact ⟨by simp [tryObjectAccess, isObject], fun v hv => by
            simp [tryObjectAccess, isObject] at hv⟩
        | vstr s => exact ⟨by simp [tryObjectAccess, isObject], fun v hv => by
            simp [tryObjectAccess, isObject] at hv⟩
        | vint n => exact ⟨by simp [tryObjectAccess, isObject], fun v hv => by
            simp [tryObjectAccess, isObject] at hv⟩
        | vbool bb => exact ⟨by simp [tryObjectAccess, isObject], fun v hv => by
            simp [tryObjectAccess, isObject] at hv⟩
        | arrAny xs => exact ⟨by simp [tryObjectAccess, isObject], fun v hv => by
            simp [tryObjectAccess, isObject] at hv⟩
        | arrStr xs => exact ⟨by simp [tryObjectAccess, isObject], fun v hv => by
            simp [tryObjectAccess, isObject] at hv⟩
        | arrInt xs => exact ⟨by simp [tryObjectAccess, isObject], fun v hv => by
            simp [tryObjectAccess, isObject] at hv⟩
        | arrOther xs => exact ⟨by simp [tryObjectAccess, isObject], fun v hv => by
            simp [tryObjectAccess, isObject] at hv⟩
        | mapAny m => exact ⟨by simp [tryObjectAccess, isObject], fun v hv => by
            simp [tryObjectAccess, isObject] at hv⟩
        | mapStr m => exact ⟨by simp [tryObjectAccess, isObject], fun v hv => by
            simp [tryObjectAccess, isObject] at hv⟩
        | mapInt m => exact ⟨by simp [tryObjectAccess, isObject], fun v hv => by
            simp [tryObjectAccess, isObject] at hv⟩
        | mapStrOther m => exact ⟨by simp [tryObjectAccess, isObject], fun v hv => by
            simp [tryObjectAccess, isObject] at hv⟩
        | mapIntKey m => exact ⟨by simp [tryObjectAccess, isObject], fun v hv => by
            simp [tryObjectAccess, isObject] at hv⟩
        | ptr t2 p2 => exact ⟨by simp [tryObjectAccess, isObject], fun v hv => by
            simp [tryObjectAccess, isObject] at hv⟩

theorem getFallback_isOk : ∀ (path : List Step) (cur : GoVal), noMapIntKey cur = true →
    (getFallback cur path).isOk = true := by
  intro path
  induction path with
  | nil => intro cur _; rfl
  | cons k rest ih =>
    intro cur hnm
    simp only [getFallback]
    split
    · rfl
    · obtain ⟨hap, hapres⟩ := tryArrayAccess_spec cur (tokenOf k) hnm
      cases hta : tryArrayAccess cur (tokenOf k) with
      | res v => exact ih v (hapres v hta)
      | panicked => exact absurd hta hap
      | unhandled =>
        obtain ⟨hop, hopres⟩ := tryObjectAccess_spec cur (tokenOf k) hnm
        cases hto : tryObjectAccess cur (tokenOf k) with
        | res v => exact ih v (hopres v hto)
        | panicked => exact absurd hto hop
        | unhandled => rfl

theorem getLoop_isOk : ∀ (path : List Step) (cur : GoVal), noMapIntKey cur = true →
    (getLoop cur path).isOk = true := by
  intro path
  induction path with
  | nil => intro cur _; rfl
  | cons k rest ih =>
    intro cur hnm
    cases hf : fastGet cur k with
    | mk v b =>
      cases b
      · rw [show getLoop cur (k :: rest) = getFallback cur (k :: rest) by
          rw [getLoop]
          simp only [hf]]
        exact getFallback_isOk _ _ hnm
      · rw [show getLoop cur (k :: rest) = getLoop v rest by
          rw [getLoop]
          simp only [hf]]
        exact ih v (fastGet_noMapIntKey cur k v true hnm hf)

/-! ## Key-normalization lemmas for find and findByPointer -/

theorem findStepBase_spec : ∀ (base : GoVal) (k : Step) (o v : GoVal) (nk : Step),
    findStepBase base k = .next o v nk →
    o = base ∧
    (isSliceKind o = true → ∃ i, nk = .int i) ∧
    (isStrMapKind o = true → nk = k) := by
  intro base k o v nk h
  cases base with
  | null => exact StepRes.noConfusion h
  | vstr s => exact StepRes.noConfusion h
  | vint n => exact StepRes.noConfusion h
  | vbool b => exact StepRes.noConfusion h
  | arrAny xs =>
    simp only [findStepBase] at h
    split at h
    · exact StepRes.noConfusion h
    · injection h with h1 h2 h3
      subst h1
      subst h3
      exact ⟨rfl, fun _ => ⟨_, rfl⟩, fun hsm => by simp [isStrMapKind] at hsm⟩
    · injection h with h1 h2 h3
      subst h1
      subst h3
      exact ⟨rfl, fun _ => ⟨_, rfl⟩, fun hsm => by simp [isStrMapKind] at hsm⟩
  | arrStr xs =>
    simp only [findStepBase] at h
    split at h
    · exact StepRes.noConfusion h
    · injection h with h1 h2 h3
      subst h1
      subst h3
      exact ⟨rfl, fun _ => ⟨_, rfl⟩, fun hsm => by simp [isStrMapKind] at hsm⟩
    · injection h with h1 h2 h3
      subst h1
      subst h3
      exact ⟨rfl, fun _ => ⟨_, rfl⟩, fun hsm => by simp [isStrMapKind] at hsm⟩
  | arrInt xs =>
    simp only [findStepBase] at h
    split at h
    · exact StepRes.noConfusion h
    · injection h with h1 h2 h3
      subst h1
      subst h3
      exact ⟨rfl, fun _ => ⟨_, rfl⟩, fun hsm => by simp [isStrMapKind] at hsm⟩
    · injection h with h1 h2 h3
      subst h1
      subst h3
      exact ⟨rfl, fun _ => ⟨_, rfl⟩, fun hsm => by simp [isStrMapKind] at hsm⟩
  | arrOther xs =>
    simp only [findStepBase] at h
    split at h
    · exact StepRes.noConfusion h
    · injection h with h1 h2 h3
      subst h1
      subst h3
      exact ⟨rfl, fun _ => ⟨_, rfl⟩, fun hsm => by simp [isStrMapKind] at hsm⟩
    · injection h with h1 h2 h3
      subst h1
      subst h3
      exact ⟨rfl, fun _ => ⟨_, rfl⟩, fun hsm => by simp [isStrMapKind] at hsm⟩
  | mapAny m =>
    cases k with
    | int n => exact StepRes.noConfusion h
    | str ks =>
      simp only [findStepBase] at h
      injection h with h1 h2 h3
      subst h1
      subst h3
      exact ⟨rfl, fun hsl => by simp [isSliceKind] at hsl, fun _ => rfl⟩
  | mapStr m =>
    cases k with
    | int n => exact StepRes.noConfusion h
    | str ks =>
      simp only [findStepBase] at h
      injection h with h1 h2 h3
      subst h1
      subst h3
      exact ⟨rfl, fun hsl => by simp [isSliceKind] at hsl, fun _ => rfl⟩
  | mapInt m =>
    cases k with
    | int n => exact StepRes.noConfusion h
    | str ks =>
      simp only [findStepBase] at h
      injection h with h1 h2 h3
      subst h1
      subst h3
      exact ⟨rfl, fun hsl => by simp [isSliceKind] at hsl, fun _ => rfl⟩
  | mapStrOther m =>
    cases k with
    | int n => exact StepRes.noConfusion h
    | str ks =>
      simp only [findStepBase] at h
      injection h with h1 h2 h3
      subst h1
      subst h3
      exact ⟨rfl, fun hsl => by simp [isSliceKind] at hsl, fun _ => rfl⟩
  | mapIntKey m =>
    cases k with
    | int n => exact StepRes.noConfusion h
    | str ks => exact StepRes.noConfusion h
  | strct fields =>
    cases k with
    | int n => exact StepRes.noConfusion h
    | str ks =>
      simp only [findStepBase] at h
      injection h with h1 h2 h3
      subst h1
      subst h3
      exact ⟨rfl, fun hsl => by simp [isSliceKind] at hsl,
        fun hsm => by simp [isStrMapKind] at hsm⟩
  | ptr t p => exact StepRes.noConfusion h

theorem findStep_next_spec : ∀ (w : GoVal) (k : Step) (o v : GoVal) (nk : Step),
    findStep w k = .next o v nk →
    (isSliceKind o = true → ∃ i, nk = .int i) ∧
    (isStrMapKind o = true → nk = k) := by
  intro w k o v nk h
  unfold findStep at h
  cases hd : derefChain w with
  | none =>
    simp only [hd] at h
    exact StepRes.noConfusion h
  | some base =>
    simp only [hd] at h
    have hs := findStepBase_spec base k o v nk h
    exact ⟨hs.2.1, hs.2.2⟩

theorem findSteps_ok_spec : ∀ (steps : List Step) (val : GoVal) (o0 : Option GoVal)
    (k0 : Option Step) (ref : Reference) (klast : Step),
    steps.getLast? = some klast →
    findSteps val steps o0 k0 = .ok ref →
    ∃ w o v nk, findStep w klast = .next o v nk ∧ ref = ⟨v, some o, some nk⟩ := by
  intro steps
  induction steps with
  | nil =>
    intro val o0 k0 ref klast hlast h
    simp at hlast
  | cons k rest ih =>
    intro val o0 k0 ref klast hlast h
    cases rest with
    | nil =>
      have hk : klast = k := by simp at hlast; exact hlast.symm
      subst hk
      simp only [findSteps] at h
      cases hs : findStep val klast with
      | err e =>
        simp only [hs] at h
        exact FindRes.noConfusion h
      | panicked =>
        simp only [hs] at h
        exact FindRes.noConfusion h
      | next o v nk =>
        simp only [hs, findSteps] at h
        injection h with h
        exact ⟨val, o, v, nk, hs, h.symm⟩
    | cons k2 rest2 =>
      have hlast2 : (k2 :: rest2).getLast? = some klast := by
        rw [List.getLast?_cons_cons] at hlast
        exact hlast
      simp only [findSteps] at h
      cases hs : findStep val k with
      | err e =>
        simp only [hs] at h
        exact FindRes.noConfusion h
      | panicked =>
        simp only [hs] at h
        exact FindRes.noConfusion h
      | next o v nk =>
        simp only [hs] at h
        exact ih v (some o) (some nk) ref klast hlast2 h

theorem fbpStep_spec : ∀ (val : GoVal) (seg : List Char) (o v : GoVal) (nk : Step),
    fbpStep val seg = .next o v nk →
    o = val ∧
    (isSliceKind o = true → ∃ i, nk = .int i) ∧
    (isStrMapKind o = true → nk = .str (unescapeComponent ⟨seg⟩)) := by
  intro val seg o v nk h
  unfold fbpStep at h
  by_cases ha : isArrayPointer val = true
  · rw [if_pos ha] at h
    split at h
    · injection h with h1 h2 h3
      subst h1
      subst h3
      refine ⟨rfl, fun _ => ⟨_, rfl⟩, fun hsm => ?_⟩
      cases val <;>
        first
        | exact absurd ha (fun hx => Bool.noConfusion hx)
        | exact absurd hsm (fun hx => Bool.noConfusion hx)
    · split at h
      · exact StepRes.noConfusion h
      · split at h
        · exact StepRes.noConfusion h
        · split at h
          · exact StepRes.noConfusion h
          · injection h with h1 h2 h3
            subst h1
            subst h3
            refine ⟨rfl, fun _ => ⟨_, rfl⟩, fun hsm => ?_⟩
            cases val <;>
              first
              | exact absurd ha (fun hx => Bool.noConfusion hx)
              | exact absurd hsm (fun hx => Bool.noConfusion hx)
  · rw [if_neg ha] at h
    split at h
    · rename_i hb
      cases val with
      | mapAny m =>
        injection h with h1 h2 h3
        subst h1
        subst h3
        exact ⟨rfl, fun hsl => by simp [isSliceKind] at hsl, fun _ => rfl⟩
      | mapStr m =>
        injection h with h1 h2 h3
        subst h1
        subst h3
        exact ⟨rfl, fun hsl => by simp [isSliceKind] at hsl, fun _ => rfl⟩
      | mapInt m =>
        injection h with h1 h2 h3
        subst h1
        subst h3
        exact ⟨rfl, fun hsl => by simp [isSliceKind] at hsl, fun _ => rfl⟩
      | mapStrOther m =>
        injection h with h1 h2 h3
        subst h1
        subst h3
        exact ⟨rfl, fun hsl => by simp [isSliceKind] at hsl, fun _ => rfl⟩
      | mapIntKey m => exact StepRes.noConfusion h
      | ptr t p =>
        injection h with h1 h2 h3
        subst h1
        subst h3
        exact ⟨rfl, fun hsl => by simp [isSliceKind] at hsl,
          fun hsm => by simp [isStrMapKind] at hsm⟩
      | strct fields =>
        injection h with h1 h2 h3
        subst h1
        subst h3
        exact ⟨rfl, fun hsl => by simp [isSliceKind] at hsl,
          fun hsm => by simp [isStrMapKind] at hsm⟩
      | null => simp [isObjectPointer] at hb
      | vstr s => simp [isObjectPointer] at hb
      | vint n => simp [isObjectPointer] at hb
      | vbool b => simp [isObjectPointer] at hb
      | arrAny xs => simp [isArrayPointer] at ha
      | arrStr xs => simp [isArrayPointer] at ha
      | arrInt xs => simp [isArrayPointer] at ha
      | arrOther xs => simp [isArrayPointer] at ha
    · exact StepRes.noConfusion h

theorem fbpSteps_ok_spec : ∀ (segs : List (List Char)) (val : GoVal) (o0 : Option GoVal)
    (k0 : Option Step) (ref : Reference) (seglast : List Char),
    segs.getLast? = some seglast →
    fbpSteps val segs o0 k0 = .ok ref →
    ∃ w o v nk, fbpStep w seglast = .next o v nk ∧ ref = ⟨v, some o, some nk⟩ := by
  intro segs
  induction segs with
  | nil =>
    intro val o0 k0 ref seglast hlast h
    simp at hlast
  | cons s rest ih =>
    intro val o0 k0 ref seglast hlast h
    cases rest with
    | nil =>
      have hk : seglast = s := by simp at hlast; exact hlast.symm
      subst hk
      simp only [fbpSteps] at h
      cases hs : fbpStep val seglast with
      | err e =>
        simp only [hs] at h
        exact FindRes.noConfusion h
      | panicked =>
        simp only [hs] at h
        exact FindRes.noConfusion h
      | next o v nk =>
        simp only [hs, fbpSteps] at h
        injection h with h
        exact ⟨val, o, v, nk, hs, h.symm⟩
    | cons s2 rest2 =>
      have hlast2 : (s2 :: rest2).getLast? = some seglast := by
        rw [List.getLast?_cons_cons] at hlast
        exact hlast
      simp only [fbpSteps] at h
      cases hs : fbpStep val s with
      | err e =>
        simp only [hs] at h
        exact FindRes.noConfusion h
      | panicked =>
        simp only [hs] at h
        exact FindRes.noConfusion h
      | next o v nk =>
        simp only [hs] at h
        exact ih v (some o) (some nk) ref seglast hlast2 h

/-! ## Small helpers for the claim proofs -/

theorem getFallback_null : ∀ rest, getFallback .null rest = .ok .null := by
  intro rest
  cases rest with
  | nil => rfl
  | cons a b => rfl

/-! ## Claims -/

/-- Claim C2 counterexample: the permissive get does stringify an integer
step against a mapping — get on the map with key "1" and integer step 1
returns the stored value, not absent, because getTokenAtIndex renders the
step with componentToString before tryObjectAccess looks it up. -/
theorem claim_C2_cex :
    get (.mapAny [("1", .vstr "x")]) [.int 1] = .ok (.vstr "x") ∧
    GoVal.vstr "x" ≠ GoVal.null := ⟨rfl, fun h => GoVal.noConfusion h⟩

/-- Claim C2 amended: a non-string (integer) step n against a mapping is
NotFound for the strict find, but the permissive get renders n in decimal
and resolves it as that string key: it returns the mapping entry at the
rendered key when present and nil otherwise. -/
theorem claim_C2 (m : List (String × GoVal)) (n : Int) :
    find (.mapAny m) [.int n] = .err .notFound ∧
    get (.mapAny m) [.int n] = .ok ((List.lookup (itoa n) m).getD .null) := ⟨rfl, rfl⟩

/-- Claim C3: for a sequence of length N (N zero or positive), resolving
the end-marker step "-" with find and with findByPointer succeeds with an
absent value and key N, and the reference satisfies the end-of-sequence
predicate isArrayEnd. -/
theorem claim_C3 (xs : List GoVal) :
    find (.arrAny xs) [.str "-"]
      = .ok ⟨.null, some (.arrAny xs), some (.int (xs.length : Int))⟩ ∧
    findByPointer "/-" (.arrAny xs)
      = .ok ⟨.null, some (.arrAny xs), some (.int (xs.length : Int))⟩ ∧
    isArrayEnd ⟨none, xs, (xs.length : Int)⟩ = true := by
  refine ⟨rfl, rfl, ?_⟩
  simp [isArrayEnd]

/-- Claim C5: the string steps "01", "-1", "1.5", "" and " 1" are all
rejected as array indices against a sequence: strict find returns
InvalidIndex and the permissive get returns absent; in general a string
step is accepted as an index only when the decimal rendering of the
parsed non-negative integer equals the original string. -/
theorem claim_C5 :
    (find (.arrAny [.vint 7]) [.str "01"] = .err .invalidIndex ∧
      get (.arrAny [.vint 7]) [.str "01"] = .ok .null) ∧
    (find (.arrAny [.vint 7]) [.str "-1"] = .err .invalidIndex ∧
      get (.arrAny [.vint 7]) [.str "-1"] = .ok .null) ∧
    (find (.arrAny [.vint 7]) [.str "1.5"] = .err .invalidIndex ∧
      get (.arrAny [.vint 7]) [.str "1.5"] = .ok .null) ∧
    (find (.arrAny [.vint 7]) [.str ""] = .err .invalidIndex ∧
      get (.arrAny [.vint 7]) [.str ""] = .ok .null) ∧
    (find (.arrAny [.vint 7]) [.str " 1"] = .err .invalidIndex ∧
      get (.arrAny [.vint 7]) [.str " 1"] = .ok .null) ∧
    (∀ (s : String) (n : Int), parseArrayKey (.str s) = .ok (.index n) →
      0 ≤ n ∧ itoa n = s) := by
  refine ⟨⟨rfl, rfl⟩, ⟨rfl, rfl⟩, ⟨rfl, rfl⟩, ⟨rfl, rfl⟩, ⟨rfl, rfl⟩, ?_⟩
  intro s n h
  have hs := parseArrayKey_str_ok h
  exact ⟨hs.1, hs.2.1⟩

/-- Claim C5 witness: the general canonical-form condition applied at the
accepted index string "7". -/
theorem claim_C5_witness :
    parseArrayKey (.str "7") = .ok (.index 7) ∧ 0 ≤ (7 : Int) ∧ itoa 7 = "7" :=
  ⟨by rfl, claim_C5.2.2.2.2.2 "7" 7 (by rfl)⟩

/-- Claim C8 counterexample: the permissive get is not total — on a map
whose key type is not string, the reflective fallback calls reflect
MapIndex with a string key, which panics. -/
theorem claim_C8_cex :
    get (.mapIntKey [(1, .vstr "x")]) [.str "a"] = .panicked := rfl

/-- Claim C1 counterexample: for the one-element sequence and the
out-of-bounds canonical index 5 (5 > 1, beyond the one-past-end
allowance), both strict operations succeed with a Reference whose value
is absent instead of raising InvalidIndex or IndexOutOfBounds. -/
theorem claim_C1_cex :
    find (.arrAny [.vint 1]) [.str "5"]
      = .ok ⟨.null, some (.arrAny [.vint 1]), some (.int 5)⟩ ∧
    findByPointer "/5" (.arrAny [.vint 1])
      = .ok ⟨.null, some (.arrAny [.vint 1]), some (.int 5)⟩ := ⟨rfl, rfl⟩

/-- Claim C1 amended: for a sequence of length N and a canonical index
n > N, the strict find and findByPointer succeed at the last step with a
Reference carrying an absent value, the sequence, and key n; when more
steps remain the walk fails at the following step with NotFound; and the
permissive get returns absent. -/
theorem claim_C1 (xs : List GoVal) (s : String) (n : Int) (k2 : Step)
    (rest rest2 : List Step)
    (hparse : parseArrayKey (.str s) = .ok (.index n))
    (hgt : (xs.length : Int) < n) :
    find (.arrAny xs) [.str s] = .ok ⟨.null, some (.arrAny xs), some (.int n)⟩ ∧
    find (.arrAny xs) (.str s :: k2 :: rest) = .err .notFound ∧
    findByPointer ("/" ++ s) (.arrAny xs)
      = .ok ⟨.null, some (.arrAny xs), some (.int n)⟩ ∧
    get (.arrAny xs) (.str s :: rest2) = .ok .null := by
  obtain ⟨hn0, hitoa, hatoi, hdash⟩ := parseArrayKey_str_ok hparse
  have hstep : findStep (.arrAny xs) (.str s) = .next (.arrAny xs) .null (.int n) := by
    unfold findStep
    rw [show derefChain (.arrAny xs) = some (.arrAny xs) from rfl]
    simp only [findStepBase, hparse]
    rw [if_neg (by omega : ¬ n < (xs.length : Int))]
  refine ⟨?_, ?_, ?_, ?_⟩
  · show findSteps (.arrAny xs) [.str s] none none = _
    simp only [findSteps, hstep]
  · show findSteps (.arrAny xs) (.str s :: k2 :: rest) none none = _
    simp only [findSteps, hstep]
    rfl
  · have hnoslash : '/' ∉ s.data := by
      intro hm
      rw [← hitoa, itoa_nonneg hn0] at hm
      exact absurd (natRepr_chars hm) (by decide)
    have hsplit : splitOnSlash (("/" ++ s).data.tail) = [s.data] := by
      rw [show ("/" ++ s).data.tail = s.data from rfl]
      exact noSlash_split s.data hnoslash
    have hsegdash : s.data ≠ ['-'] := by
      intro hm
      apply hdash
      have : (⟨s.data⟩ : String) = (⟨['-']⟩ : String) := by rw [hm]
      exact this
    have hfstep : fbpStep (.arrAny xs) s.data = .next (.arrAny xs) .null (.int n) := by
      unfold fbpStep
      rw [if_pos (show isArrayPointer (.arrAny xs) = true from rfl)]
      rw [if_neg hsegdash]
      rw [show atoi (⟨s.data⟩ : String) = atoi s from rfl]
      simp only [hatoi]
      rw [if_neg (show ¬ itoa n ≠ (⟨s.data⟩ : String) by
        rw [show (⟨s.data⟩ : String) = s from rfl]
        simp [hitoa])]
      rw [if_neg (by omega : ¬ n < 0)]
      rw [if_neg (by
        show ¬ n < (sliceLen (.arrAny xs) : Int)
        rw [show sliceLen (.arrAny xs) = xs.length from rfl]
        omega)]
    show findByPointer ("/" ++ s) (.arrAny xs) = _
    unfold findByPointer
    rw [if_neg (show ("/" ++ s) ≠ "" by
      intro he
      have := congrArg String.data he
      rw [show ("/" ++ s).data = '/' :: s.data from rfl] at this
      simp at this)]
    rw [hsplit]
    simp only [fbpSteps, hfstep]
  · have hfa : fastAtoi s = n := fastAtoi_of_parseArrayKey hparse
    have hfg : fastGet (.arrAny xs) (.str s) = (.null, false) := by
      simp only [fastGet]
      rw [show componentToString (.str s) = s from rfl]
      rw [if_neg hdash, if_pos (by rw [hfa]; right; omega)]
    have htry : tryArrayAccess (.arrAny xs) (tokenOf (.str s)) = .res .null := by
      rw [show tryArrayAccess (.arrAny xs) (tokenOf (.str s))
          = (if s = "-" then TryRes.res .null
             else if fastAtoi s < 0 ∨ (xs.length : Int) ≤ fastAtoi s then TryRes.res .null
             else TryRes.res (xs.getD (fastAtoi s).toNat .null)) from rfl]
      rw [if_neg hdash, if_pos (by rw [hfa]; right; omega)]
    show getLoop (.arrAny xs) (.str s :: rest2) = .ok .null
    rw [show getLoop (.arrAny xs) (.str s :: rest2)
        = (match fastGet (.arrAny xs) (.str s) with
           | (v, true) => getLoop v rest2
           | (_, false) => getFallback (.arrAny xs) (.str s :: rest2)) from rfl]
    rw [hfg]
    show getFallback (.arrAny xs) (.str s :: rest2) = .ok .null
    rw [show getFallback (.arrAny xs) (.str s :: rest2)
        = (match tryArrayAccess (.arrAny xs) (tokenOf (.str s)) with
           | .res w => getFallback w rest2
           | .panicked => GetRes.panicked
           | .unhandled =>
             match tryObjectAccess (.arrAny xs) (tokenOf (.str s)) with
             | .res w => getFallback w rest2
             | .panicked => GetRes.panicked
             | .unhandled => GetRes.ok .null) from rfl]
    rw [htry]
    exact getFallback_null rest2

/-- Claim C1 witness: the amended statement applied to the sequence [1]
and canonical index string "5". -/
theorem claim_C1_witness :
    parseArrayKey (.str "5") = .ok (.index 5) ∧
    (([GoVal.vint 1] : List GoVal).length : Int) < 5 ∧
    find (.arrAny [.vint 1]) [.str "5"]
      = .ok ⟨.null, some (.arrAny [.vint 1]), some (.int 5)⟩ ∧
    find (.arrAny [.vint 1]) [.str "5", .str "x"] = .err .notFound ∧
    findByPointer ("/" ++ "5") (.arrAny [.vint 1])
      = .ok ⟨.null, some (.arrAny [.vint 1]), some (.int 5)⟩ ∧
    get (.arrAny [.vint 1]) [.str "5"] = .ok .null :=
  ⟨by rfl, by decide, claim_C1 [.vint 1] "5" 5 (.str "x") [] [] (by rfl) (by decide)⟩

/-- Claim C4: resolving the canonical numeric index equal to the sequence
length as the last step yields an absent value and no error in both
policies: strict find returns a Reference with absent value, the sequence
as container and key N, and the permissive get returns absent — for the
int-typed step and for its canonical decimal string form. -/
theorem claim_C4 (xs : List GoVal) (n : Int)
    (hn : n = (xs.length : Int)) (hmax : (xs.length : Int) ≤ int64Max) :
    find (.arrAny xs) [.int n] = .ok ⟨.null, some (.arrAny xs), some (.int n)⟩ ∧
    find (.arrAny xs) [.str (natRepr xs.length)]
      = .ok ⟨.null, some (.arrAny xs), some (.int n)⟩ ∧
    get (.arrAny xs) [.int n] = .ok .null ∧
    get (.arrAny xs) [.str (natRepr xs.length)] = .ok .null := by
  subst hn
  have hpk : parseArrayKey (.int (xs.length : Int)) = .ok (.index (xs.length : Int)) := by
    simp only [parseArrayKey]
    rw [if_neg (by omega : ¬ (xs.length : Int) < 0)]
  have hpk2 : parseArrayKey (.str (natRepr xs.length)) = .ok (.index (xs.length : Int)) :=
    parseArrayKey_natRepr hmax
  have hget : ∀ k : Step, parseArrayKey k = .ok (.index (xs.length : Int)) →
      componentToString k = natRepr xs.length →
      get (.arrAny xs) [k] = .ok .null := by
    intro k hk hcomp
    have hfa : fastAtoi (componentToString k) = (xs.length : Int) := by
      rw [hcomp]
      exact fastAtoi_natRepr hmax
    have hdash : componentToString k ≠ "-" := by
      rw [hcomp]
      exact natRepr_ne_dash xs.length
    have hfg : fastGet (.arrAny xs) k = (.null, false) := by
      simp only [fastGet]
      rw [if_neg hdash, if_pos (by rw [hfa]; right; omega)]
    have htry : tryArrayAccess (.arrAny xs) (tokenOf k) = .res .null := by
      rw [show tryArrayAccess (.arrAny xs) (tokenOf k)
          = (if componentToString k = "-" then TryRes.res .null
             else if fastAtoi (componentToString k) < 0
                 ∨ (xs.length : Int) ≤ fastAtoi (componentToString k) then TryRes.res .null
             else TryRes.res
               (xs.getD (fastAtoi (componentToString k)).toNat .null)) from rfl]
      rw [if_neg hdash, if_pos (by rw [hfa]; right; omega)]
    show getLoop (.arrAny xs) [k] = .ok .null
    rw [show getLoop (.arrAny xs) [k]
        = (match fastGet (.arrAny xs) k with
           | (v, true) => getLoop v []
           | (_, false) => getFallback (.arrAny xs) [k]) from rfl]
    rw [hfg]
    show getFallback (.arrAny xs) [k] = .ok .null
    rw [show getFallback (.arrAny xs) [k]
        = (match tryArrayAccess (.arrAny xs) (tokenOf k) with
           | .res w => getFallback w []
           | .panicked => GetRes.panicked
           | .unhandled =>
             match tryObjectAccess (.arrAny xs) (tokenOf k) with
             | .res w => getFallback w []
             | .panicked => GetRes.panicked
             | .unhandled => GetRes.ok .null) from rfl]
    rw [htry]
    rfl
  have hfind : ∀ k : Step, parseArrayKey k = .ok (.index (xs.length : Int)) →
      find (.arrAny xs) [k] = .ok ⟨.null, some (.arrAny xs), some (.int (xs.length : Int))⟩ := by
    intro k hk
    have hstep : findStep (.arrAny xs) k = .next (.arrAny xs) .null (.int (xs.length : Int)) := by
      unfold findStep
      rw [show derefChain (.arrAny xs) = some (.arrAny xs) from rfl]
      simp only [findStepBase, hk]
      rw [if_neg (by omega : ¬ (xs.length : Int) < (xs.length : Int))]
    show findSteps (.arrAny xs) [k] none none = _
    simp only [findSteps, hstep]
  refine ⟨hfind _ hpk, hfind _ hpk2, hget _ hpk ?_, hget _ hpk2 rfl⟩
  show itoa (xs.length : Int) = natRepr xs.length
  rw [itoa_nonneg (by positivity)]
  simp

/-- Claim C4 witness: the statement applied to a two-element sequence and
index 2. -/
theorem claim_C4_witness :
    (2 : Int) = (([GoVal.vint 1, GoVal.vint 2] : List GoVal).length : Int) ∧
    (([GoVal.vint 1, GoVal.vint 2] : List GoVal).length : Int) ≤ int64Max ∧
    find (.arrAny [.vint 1, .vint 2]) [.int 2]
      = .ok ⟨.null, some (.arrAny [.vint 1, .vint 2]), some (.int 2)⟩ ∧
    find (.arrAny [.vint 1, .vint 2]) [.str (natRepr 2)]
      = .ok ⟨.null, some (.arrAny [.vint 1, .vint 2]), some (.int 2)⟩ ∧
    get (.arrAny [.vint 1, .vint 2]) [.int 2] = .ok .null ∧
    get (.arrAny [.vint 1, .vint 2]) [.str (natRepr 2)] = .ok .null :=
  ⟨by decide, by decide, claim_C4 [.vint 1, .vint 2] 2 (by decide) (by decide)⟩

/-- Claim C6: a missing mapping key yields a Reference with absent value
only as the last step; mid-path, strict find short-circuits with NotFound
while the permissive get returns absent — as in find({a:1}, [b,c]) being
NotFound and get({a:1}, [b,c]) being absent. -/
theorem claim_C6 (m : List (String × GoVal)) (s : String) (k2 : Step) (rest : List Step)
    (h : List.lookup s m = none) :
    find (.mapAny m) [.str s] = .ok ⟨.null, some (.mapAny m), some (.str s)⟩ ∧
    find (.mapAny m) (.str s :: k2 :: rest) = .err .notFound ∧
    get (.mapAny m) [.str s] = .ok .null ∧
    get (.mapAny m) (.str s :: k2 :: rest) = .ok .null := by
  have hstep : findStep (.mapAny m) (.str s) = .next (.mapAny m) .null (.str s) := by
    unfold findStep
    rw [show derefChain (.mapAny m) = some (.mapAny m) from rfl]
    simp only [findStepBase, h]
    rfl
  have hget : ∀ rest2 : List Step, get (.mapAny m) (.str s :: rest2) = .ok .null := by
    intro rest2
    have hfg : fastGet (.mapAny m) (.str s) = (.null, false) := by
      simp only [fastGet, h]
    have htry : tryObjectAccess (.mapAny m) (tokenOf (.str s)) = .res .null := by
      rw [show tryObjectAccess (.mapAny m) (tokenOf (.str s))
          = TryRes.res ((List.lookup s m).getD .null) from rfl, h]
      rfl
    show getLoop (.mapAny m) (.str s :: rest2) = .ok .null
    rw [show getLoop (.mapAny m) (.str s :: rest2)
        = (match fastGet (.mapAny m) (.str s) with
           | (v, true) => getLoop v rest2
           | (_, false) => getFallback (.mapAny m) (.str s :: rest2)) from rfl]
    rw [hfg]
    show getFallback (.mapAny m) (.str s :: rest2) = .ok .null
    rw [show getFallback (.mapAny m) (.str s :: rest2)
        = (match tryObjectAccess (.mapAny m) (tokenOf (.str s)) with
           | .res w => getFallback w rest2
           | .panicked => GetRes.panicked
           | .unhandled => GetRes.ok .null) from rfl]
    rw [htry]
    exact getFallback_null rest2
  refine ⟨?_, ?_, hget [], hget (k2 :: rest)⟩
  · show findSteps (.mapAny m) [.str s] none none = _
    simp only [findSteps, hstep]
  · show findSteps (.mapAny m) (.str s :: k2 :: rest) none none = _
    simp only [findSteps, hstep]
    rfl

/-- Claim C6 witness: the statement at the spec example, the document
{a: 1} with path [b, c]. -/
theorem claim_C6_witness :
    List.lookup "b" [("a", GoVal.vint 1)] = none ∧
    find (.mapAny [("a", .vint 1)]) [.str "b"]
      = .ok ⟨.null, some (.mapAny [("a", .vint 1)]), some (.str "b")⟩ ∧
    find (.mapAny [("a", .vint 1)]) [.str "b", .str "c"] = .err .notFound ∧
    get (.mapAny [("a", .vint 1)]) [.str "b"] = .ok .null ∧
    get (.mapAny [("a", .vint 1)]) [.str "b", .str "c"] = .ok .null :=
  ⟨by rfl, claim_C6 [("a", .vint 1)] "b" (.str "c") [] (by rfl)⟩

/-- Claim C7 counterexample: the pointer string consisting of a slash and
a lone tilde is accepted by the repository's validator, yet formatting
its parse yields a different string: the tilde is re-escaped to tilde-0,
so format(parse(s)) differs from s for this valid s. -/
theorem claim_C7_cex :
    validateJsonPointer "/~" = .ok () ∧
    formatJsonPointer (parseJsonPointer "/~") = "/~0" ∧
    ("/~0" : String) ≠ "/~" := ⟨rfl, rfl, by decide⟩

/-- Claim C7 amended: parse after format is the identity on every path of
string steps (the empty path maps to the empty string), escaping is
exactly inverted by unescaping on every component, and format after parse
is the identity on every pointer string that starts with a slash and
whose tildes are all followed by 0 or 1 (the RFC 6901 escaping
discipline); the law fails for tildes not followed by 0 or 1 even though
the validator accepts such strings. -/
theorem claim_C7 :
    (∀ p : List String, parseJsonPointer (formatJsonPointer (p.map Step.str)) = p.map Step.str) ∧
    (∀ s : String, unescapeComponent (escapeComponent s) = s) ∧
    (∀ s : String, s.data.head? = some '/' → tildeWF s.data = true →
      formatJsonPointer (parseJsonPointer s) = s) := by
  refine ⟨parse_format, ?_, format_parse_wf⟩
  intro s
  show (⟨unescapeList (escapeList s.data)⟩ : String) = s
  rw [unescape_escape]

/-- Claim C7 witness: the format-after-parse law applied to the escaped
pointer string with segments a~0b and x. -/
theorem claim_C7_witness :
    ("/a~0b/x" : String).data.head? = some '/' ∧
    tildeWF ("/a~0b/x" : String).data = true ∧
    formatJsonPointer (parseJsonPointer "/a~0b/x") = "/a~0b/x" :=
  ⟨by rfl, by rfl, claim_C7.2.2 "/a~0b/x" (by rfl) (by rfl)⟩

/-- Claim C8 amended: the permissive get never panics and returns a value
for every path on every document all of whose mappings are string-keyed;
a non-string-keyed mapping reached by the fallback makes the reflective
MapIndex panic. -/
theorem claim_C8 (doc : GoVal) (path : List Step) (h : noMapIntKey doc = true) :
    (get doc path).isOk = true :=
  getLoop_isOk path doc h

/-- Claim C8 witness: the amended totality statement applied to the
document {a: 1} and the path [a, b, c]. -/
theorem claim_C8_witness :
    noMapIntKey (.mapAny [("a", .vint 1)]) = true ∧
    (get (.mapAny [("a", .vint 1)]) [.str "a", .str "b", .str "c"]).isOk = true :=
  ⟨by rfl, claim_C8 (.mapAny [("a", .vint 1)]) [.str "a", .str "b", .str "c"] (by rfl)⟩

/-- Claim C9 counterexample: the performance tiers are not semantically
equivalent — on a pointer of static type *any holding the map {a: 1}, the
zero-allocation fastGet resolves the step a to 1, while both fallback
accessors leave the node unhandled; consequently get returns 1 when the
node is reached by the fast path but nil when the same node and step are
reached by the fallback (here behind a struct field, which forces the
fallback). -/
theorem claim_C9_cex :
    fastGet (.ptr .tAny (some (.mapAny [("a", .vint 1)]))) (.str "a") = (.vint 1, true) ∧
    tryArrayAccess (.ptr .tAny (some (.mapAny [("a", .vint 1)]))) (tokenOf (.str "a"))
      = .unhandled ∧
    tryObjectAccess (.ptr .tAny (some (.mapAny [("a", .vint 1)]))) (tokenOf (.str "a"))
      = .unhandled ∧
    get (.ptr .tAny (some (.mapAny [("a", .vint 1)]))) [.str "a"] = .ok (.vint 1) ∧
    get (.strct [("f", .ptr .tAny (some (.mapAny [("a", .vint 1)])))]) [.str "f", .str "a"]
      = .ok .null := ⟨rfl, rfl, rfl, rfl, rfl⟩

/-- Claim C9 amended: the tiers agree wherever both are defined on the
node: on documents containing no *any pointer node, get's fast chain
equals the fallback-only traversal; find's dedicated slice and
string-keyed-map cases agree with its reflection default on the same
underlying data up to the recorded container; and the typed-assertion
accessors agree with the reflective ones.  The *any indirection is the
one node shape the fast tier resolves and the fallback tiers do not. -/
theorem claim_C9 :
    (∀ (doc : GoVal) (path : List Step), noPtrAny doc = true →
      get doc path = getFallback doc path) ∧
    (∀ (xs : List GoVal) (k : Step),
      findStep (.arrOther xs) k = (findStep (.arrAny xs) k).setObj (.arrOther xs)) ∧
    (∀ (m : List (String × GoVal)) (k : Step),
      findStep (.mapStrOther m) k = (findStep (.mapAny m) k).setObj (.mapStrOther m)) ∧
    (∀ (xs : List GoVal) (t : InternalToken),
      tryArrayAccess (.arrOther xs) t = tryArrayAccess (.arrAny xs) t) ∧
    (∀ (m : List (String × GoVal)) (t : InternalToken),
      tryObjectAccess (.mapStrOther m) t = tryObjectAccess (.mapAny m) t) :=
  ⟨fun doc path h => get_eq_fallback path doc h, findStep_arrOther_eq,
    findStep_mapStrOther_eq, tryArrayAccess_arrOther_eq, tryObjectAccess_mapStrOther_eq⟩

/-- Claim C9 witness: the fast-versus-fallback agreement applied to the
document {a: [1]} with path [a, 0]. -/
theorem claim_C9_witness :
    noPtrAny (.mapAny [("a", .arrAny [.vint 1])]) = true ∧
    get (.mapAny [("a", .arrAny [.vint 1])]) [.str "a", .str "0"]
      = getFallback (.mapAny [("a", .arrAny [.vint 1])]) [.str "a", .str "0"] :=
  ⟨by rfl, claim_C9.1 (.mapAny [("a", .arrAny [.vint 1])]) [.str "a", .str "0"] (by rfl)⟩

/-- Claim C10: whenever find or findByPointer succeeds on a non-empty
path, a Reference whose container is a sequence carries an integer key
and satisfies isArrayReference, while a Reference whose container is a
string-keyed mapping carries the original (for findByPointer: unescaped)
string step as its key. -/
theorem claim_C10 :
    (∀ (doc : GoVal) (steps : List Step) (ref : Reference) (klast : Step),
      steps.getLast? = some klast → find doc steps = .ok ref →
      (∀ o, ref.obj = some o → isSliceKind o = true →
        (∃ i, ref.key = some (.int i)) ∧ isArrayReference ref = true) ∧
      (∀ o, ref.obj = some o → isStrMapKind o = true → ref.key = some klast)) ∧
    (∀ (pointer : String) (doc : GoVal) (ref : Reference) (seglast : List Char),
      (splitOnSlash pointer.data.tail).getLast? = some seglast → pointer ≠ "" →
      findByPointer pointer doc = .ok ref →
      (∀ o, ref.obj = some o → isSliceKind o = true →
        (∃ i, ref.key = some (.int i)) ∧ isArrayReference ref = true) ∧
      (∀ o, ref.obj = some o → isStrMapKind o = true →
        ref.key = some (.str (unescapeComponent ⟨seglast⟩)))) := by
  constructor
  · intro doc steps ref klast hlast hfind
    have hne : steps ≠ [] := by
      intro he
      rw [he] at hlast
      simp at hlast
    have hfind2 : findSteps doc steps none none = .ok ref := by
      cases steps with
      | nil => exact absurd rfl hne
      | cons k rest => exact hfind
    obtain ⟨w, o, v, nk, hstep, href⟩ :=
      findSteps_ok_spec steps doc none none ref klast hlast hfind2
    obtain ⟨hslice, hmap⟩ := findStep_next_spec w klast o v nk hstep
    subst href
    constructor
    · intro o2 ho2 hsl
      injection ho2 with ho2
      subst ho2
      obtain ⟨i, hi⟩ := hslice hsl
      subst hi
      refine ⟨⟨i, rfl⟩, ?_⟩
      simp [isArrayReference, hsl]
    · intro o2 ho2 hsm
      injection ho2 with ho2
      subst ho2
      rw [hmap hsm]
  · intro pointer doc ref seglast hlast hne hfind
    have hfind2 : fbpSteps doc (splitOnSlash pointer.data.tail) none none = .ok ref := by
      unfold findByPointer at hfind
      rw [if_neg hne] at hfind
      exact hfind
    obtain ⟨w, o, v, nk, hstep, href⟩ :=
      fbpSteps_ok_spec (splitOnSlash pointer.data.tail) doc none none ref seglast hlast hfind2
    obtain ⟨how, hslice, hmap⟩ := fbpStep_spec w seglast o v nk hstep
    subst href
    constructor
    · intro o2 ho2 hsl
      injection ho2 with ho2
      subst ho2
      obtain ⟨i, hi⟩ := hslice hsl
      subst hi
      refine ⟨⟨i, rfl⟩, ?_⟩
      simp [isArrayReference, hsl]
    · intro o2 ho2 hsm
      injection ho2 with ho2
      subst ho2
      rw [hmap hsm]

/-- Claim C10 witness: the find part applied to the sequence [9] with
path [0]: the resulting reference is classified as an array reference. -/
theorem claim_C10_witness :
    ([Step.str "0"] : List Step).getLast? = some (.str "0") ∧
    find (.arrAny [.vint 9]) [.str "0"]
      = .ok ⟨.vint 9, some (.arrAny [.vint 9]), some (.int 0)⟩ ∧
    isArrayReference ⟨.vint 9, some (.arrAny [.vint 9]), some (.int 0)⟩ = true :=
  ⟨by rfl, by rfl,
    ((claim_C10.1 (.arrAny [.vint 9]) [.str "0"]
        ⟨.vint 9, some (.arrAny [.vint 9]), some (.int 0)⟩ (.str "0") (by rfl) (by rfl)).1
      (.arrAny [.vint 9]) rfl rfl).2⟩

end JsonPointer
